import Mathlib

/-!
# CaffQL: schema model, dependency ordering and enum emission

A shallow embedding of `src/main.cpp`.

* `std::string` is `String`, `std::vector` is `List`, `std::optional` and
  `BoxedOptional` are `Option`.
* `std::unordered_set<std::string>` is a duplicate-free `List String`;
  `std::unordered_map` is an association list with unique keys.  The order in
  which a hash container is iterated is not fixed by the language, so every
  iteration goes through an `IterationOrder`, which may pick any permutation.
* `throw runtime_error{msg}` is `Except.error msg`.
* An indentation level is a `size_t`, taken as 64 bits wide: it is a `Nat`, and
  the sum and the product the code computes with it are reduced modulo
  `2 ^ 64`.
-/

namespace CaffQL

/-! ## Schema model (`struct Schema`) -/

/-- The enumeration `Schema::Type::Kind`. -/
inductive Kind where
  | Scalar | Object | Interface | Union | Enum | InputObject | List | NonNull
  deriving DecidableEq, Repr

/-- The struct `Schema::Type::TypeRef`; `ofType` is the boxed optional. -/
structure TypeRef where
  kind : Kind
  name : Option String
  ofType : Option TypeRef
  deriving Repr

/-- Decision procedure for equality of type references. -/
def TypeRef.decEq : (a b : TypeRef) → Decidable (a = b)
  | ⟨k1, n1, none⟩, ⟨k2, n2, none⟩ =>
    if h : k1 = k2 ∧ n1 = n2 then isTrue (by rw [h.1, h.2])
    else isFalse (fun e => h (by injection e with e1 e2 _; exact ⟨e1, e2⟩))
  | ⟨_, _, none⟩, ⟨_, _, some _⟩ => isFalse (fun e => by injection e with _ _ e3; cases e3)
  | ⟨_, _, some _⟩, ⟨_, _, none⟩ => isFalse (fun e => by injection e with _ _ e3; cases e3)
  | ⟨k1, n1, some a⟩, ⟨k2, n2, some b⟩ =>
    match TypeRef.decEq a b with
    | isTrue hab =>
      if h : k1 = k2 ∧ n1 = n2 then isTrue (by rw [h.1, h.2, hab])
      else isFalse (fun e => h (by injection e with e1 e2 _; exact ⟨e1, e2⟩))
    | isFalse hab => isFalse (fun e => hab (by injection e with _ _ e3; injection e3))

instance : DecidableEq TypeRef := TypeRef.decEq

/-- The member function `TypeRef::underlyingType`: follow `ofType` while it
is present, and return the reference itself once it is absent. -/
def TypeRef.underlyingType : TypeRef → TypeRef
  | ⟨_, _, some inner⟩ => inner.underlyingType
  | ⟨kind, name, none⟩ => ⟨kind, name, none⟩

/-- The struct `Schema::Type::InputValue`. -/
structure InputValue where
  name : String
  description : String
  type : TypeRef
  deriving DecidableEq, Repr

/-- The struct `Schema::Type::Field`. -/
structure Field where
  name : String
  description : String
  args : List InputValue
  type : TypeRef
  deriving DecidableEq, Repr

/-- The struct `Schema::Type::EnumValue`. -/
structure EnumValue where
  name : String
  description : String
  deriving DecidableEq, Repr

/-- The struct `Schema::Type` (the word `Type` is reserved, hence the name). -/
structure SchemaType where
  kind : Kind
  name : String
  description : String
  fields : List Field
  inputFields : List InputValue
  interfaces : List TypeRef
  enumValues : List EnumValue
  possibleTypes : List TypeRef
  deriving DecidableEq, Repr

/-- A value-initialised `Schema::Type`: kind `0`, empty strings and vectors. -/
instance : Inhabited SchemaType := ⟨⟨Kind.Scalar, "", "", [], [], [], [], []⟩⟩

/-- The struct `Schema::TypeName`. -/
structure TypeName where
  name : String
  deriving DecidableEq, Repr

/-- The struct `Schema`. -/
structure Schema where
  queryType : Option TypeName
  mutationType : Option TypeName
  subscriptionType : Option TypeName
  types : List SchemaType
  deriving DecidableEq, Repr

/-! ## Text helpers -/

/-- The constant `spacesPerIndent`. -/
def spacesPerIndent : Nat := 4

/-- The constant `unknownEnumCase`. -/
def unknownEnumCase : String := "Unknown"

/-- The number of values of `size_t`, taken as 64 bits wide: arithmetic on
`size_t` is arithmetic modulo this number. -/
def sizeModulus : Nat := 2 ^ 64

/-- The function `indent`: `std::string(indentation * spacesPerIndent, ' ')`,
the product being computed in `size_t`. -/
def indent (indentation : Nat) : String :=
  String.mk (List.replicate ((indentation * spacesPerIndent) % sizeModulus) ' ')

/-- The function `appendDescription`, returning the updated `string`. -/
def appendDescription (string description : String) (indentation : Nat) : String :=
  if description = "" then string
  else string ++ (indent indentation ++ "// " ++ description ++ "\n")

/-- The `<cctype>` function `toupper` in the C locale. -/
def toupper (c : Char) : Char := c.toUpper

/-- The `<cctype>` function `tolower` in the C locale. -/
def tolower (c : Char) : Char := c.toLower

/-- One iteration of the loop of `screamingSnakeCaseToPascalCase`; the state
is `(pascal, isFirstInWord)`. -/
def pascalStep (st : List Char × Bool) (character : Char) : List Char × Bool :=
  if character = '_' then (st.1, true)
  else if st.2 then (st.1 ++ [toupper character], false)
  else (st.1 ++ [tolower character], st.2)

/-- The function `screamingSnakeCaseToPascalCase`. -/
def screamingSnakeCaseToPascalCase (snake : String) : String :=
  String.mk (snake.data.foldl pascalStep ([], true)).1

/-! ## Generators -/

/-- The function `generateEnum`; `indentation + 1` is computed in `size_t`. -/
def generateEnum (type : SchemaType) (indentation : Nat) : String :=
  let generated := "" ++ (indent indentation ++ "enum class " ++ type.name ++ " \x7b\n")
  let valueIndentation := (indentation + 1) % sizeModulus
  let generated := type.enumValues.foldl (fun g value =>
    appendDescription g value.description valueIndentation
      ++ (indent valueIndentation ++ screamingSnakeCaseToPascalCase value.name ++ ",\n"))
    generated
  let generated := generated ++ (indent valueIndentation ++ unknownEnumCase ++ " = -1\n")
  generated ++ (indent indentation ++ "\x7d;\n\n")

/-- The function `generateEnumSerialization`; `indentation + 1` is computed in
`size_t`. -/
def generateEnumSerialization (type : SchemaType) (indentation : Nat) : String :=
  let generated := "" ++ (indent indentation ++ "NLOHMANN_JSON_SERIALIZE_ENUM(" ++ type.name
    ++ ", \x7b\n")
  let valueIndentation := (indentation + 1) % sizeModulus
  let generated := generated ++ (indent valueIndentation ++ "\x7b" ++ type.name ++ "::"
    ++ unknownEnumCase ++ ", nullptr\x7d,\n")
  let generated := type.enumValues.foldl (fun g value =>
    g ++ (indent valueIndentation ++ "\x7b" ++ type.name ++ "::"
      ++ screamingSnakeCaseToPascalCase value.name ++ ", \"" ++ value.name ++ "\"\x7d,\n"))
    generated
  generated ++ (indent indentation ++ "\x7d);\n\n")

deriving instance DecidableEq for Except

/-! ## Hash containers -/

/-- The order in which the hash containers are iterated.  `mapOrder k keys` is
the order in which the `k`-th pass of the sorter meets the keys of
`typesToDependencies`; `setOrder x s` is the order in which the elements of
`typesToDependents[x]` are met.  Both are arbitrary permutations. -/
structure IterationOrder where
  mapOrder : Nat → List String → List String
  mapOrder_perm : ∀ k keys, (mapOrder k keys).Perm keys
  setOrder : String → List String → List String
  setOrder_perm : ∀ x s, (setOrder x s).Perm s

/-- The iteration order that meets the elements in insertion order. -/
def insertionOrder : IterationOrder :=
  ⟨fun _ keys => keys, fun _ _ => List.Perm.refl _, fun _ s => s, fun _ _ => List.Perm.refl _⟩

/-- The iteration order that meets the elements in reverse insertion order. -/
def reverseOrder : IterationOrder :=
  ⟨fun _ keys => keys.reverse, fun _ keys => List.reverse_perm keys,
   fun _ s => s.reverse, fun _ s => List.reverse_perm s⟩

/-- The call `set.insert(x)` on an `unordered_set<string>`. -/
def setInsert (s : List String) (x : String) : List String :=
  if x ∈ s then s else s ++ [x]

/-- The call `set.erase(x)` on an `unordered_set<string>`. -/
def setErase (s : List String) (x : String) : List String :=
  s.filter (fun y => y ≠ x)

/-- The access `map[key]` on an `unordered_map` followed by a modification `f`
of the referenced value: an absent key is first inserted with the
value-initialised `dflt`. -/
def mapModify {β : Type} (dflt : β) (f : β → β) : List (String × β) → String → List (String × β)
  | [], key => [(key, f dflt)]
  | (k, v) :: rest, key =>
    if k = key then (k, f v) :: rest else (k, v) :: mapModify dflt f rest key

/-- The call `map.find(key)` on an `unordered_map`, `none` standing for `end()`. -/
def mapFind {β : Type} : List (String × β) → String → Option β
  | [], _ => none
  | (k, v) :: rest, key => if k = key then some v else mapFind rest key

/-- The call `map.erase(key)` on an `unordered_map`. -/
def mapErase {β : Type} (m : List (String × β)) (key : String) : List (String × β) :=
  m.filter (fun e => e.1 ≠ key)

/-! ## Dependency ordering (`sortCustomTypesByDependencyOrder`) -/

/-- The local struct `TypeWithDependencies`. -/
structure TypeWithDependencies where
  type : SchemaType
  dependencies : List String
  deriving DecidableEq, Repr

instance : Inhabited TypeWithDependencies := ⟨⟨default, []⟩⟩

/-- The lambda `isCustomType`. -/
def isCustomType : Kind → Bool
  | Kind.Object => true
  | Kind.Interface => true
  | Kind.Union => true
  | Kind.Enum => true
  | Kind.InputObject => true
  | Kind.Scalar => false
  | Kind.List => false
  | Kind.NonNull => false

/-- The read `typesToDependents[x]`.  An absent key reads as the empty set; the
empty entry that `operator[]` would insert is never observed, because
`typesToDependents` is only ever accessed through `operator[]`. -/
def dependentsOf (typesToDependents : List (String × List String)) (x : String) : List String :=
  (mapFind typesToDependents x).getD []

/-- The lambda `addDependency` inside the loop body for the type named
`typeName`; the state is `(typesToDependents, dependencies)`. -/
def addDependency (typeName : String) (st : List (String × List String) × List String)
    (dependency : TypeRef) : List (String × List String) × List String :=
  match dependency.name with
  | some name =>
    if isCustomType dependency.kind then
      (mapModify [] (fun s => setInsert s typeName) st.1 name, setInsert st.2 name)
    else st
  | none => st

/-- The body of `for (auto const & field : type.fields)`. -/
def addFieldDependencies (typeName : String) (st : List (String × List String) × List String)
    (field : Field) : List (String × List String) × List String :=
  field.args.foldl (fun s arg => addDependency typeName s arg.type.underlyingType)
    (addDependency typeName st field.type.underlyingType)

/-- The three loops over `fields`, `inputFields` and `interfaces` of one type,
starting from an empty `dependencies` set. -/
def collectDependencies (type : SchemaType) (typesToDependents : List (String × List String)) :
    List (String × List String) × List String :=
  let st := type.fields.foldl (addFieldDependencies type.name) (typesToDependents, [])
  let st := type.inputFields.foldl
    (fun s field => addDependency type.name s field.type.underlyingType) st
  type.interfaces.foldl (addDependency type.name) st

/-- The two maps built by the first loop of the sorter. -/
structure DependencyGraph where
  typesToDependents : List (String × List String)
  typesToDependencies : List (String × TypeWithDependencies)
  deriving DecidableEq, Repr

/-- The body of `for (auto const & type : types)`. -/
def buildStep (g : DependencyGraph) (type : SchemaType) : DependencyGraph :=
  if isCustomType type.kind then
    let st := collectDependencies type g.typesToDependents
    ⟨st.1, mapModify default (fun _ => ⟨type, st.2⟩) g.typesToDependencies type.name⟩
  else g

/-- The first loop of the sorter. -/
def buildGraph (types : List SchemaType) : DependencyGraph :=
  types.foldl buildStep ⟨[], []⟩

/-- The statement `typesToDependencies[dependentName].dependencies.erase(x)`. -/
def eraseDependency (m : List (String × TypeWithDependencies)) (x dependentName : String) :
    List (String × TypeWithDependencies) :=
  mapModify default (fun twd => ⟨twd.type, setErase twd.dependencies x⟩) m dependentName

/-- The state of one pass of the `while` loop. -/
structure PassState where
  typesToDependencies : List (String × TypeWithDependencies)
  sortedTypes : List SchemaType
  addedTypeNames : List String
  deriving DecidableEq, Repr

/-- The body of `for (auto const & pair : typesToDependencies)` for the pair
whose key is `key`; `pair.second` is read from the map as it is at that
moment.  The pass neither erases nor reorders entries, so the key is found. -/
def visit (ord : IterationOrder) (typesToDependents : List (String × List String))
    (st : PassState) (key : String) : PassState :=
  match mapFind st.typesToDependencies key with
  | none => st
  | some second =>
    if second.dependencies.isEmpty then
      { typesToDependencies :=
          (ord.setOrder key (dependentsOf typesToDependents key)).foldl
            (fun m dependentName => eraseDependency m key dependentName) st.typesToDependencies
        sortedTypes := st.sortedTypes ++ [second.type]
        addedTypeNames := st.addedTypeNames ++ [key] }
    else st

/-- One pass of the `while` loop up to and including the erasure of the added
names: the `k`-th iteration over the map, then `erase` for each added name. -/
def pass (ord : IterationOrder) (typesToDependents : List (String × List String)) (k : Nat)
    (m : List (String × TypeWithDependencies)) (sortedTypes : List SchemaType) :
    List (String × TypeWithDependencies) × List SchemaType :=
  let st := (ord.mapOrder k (m.map Prod.fst)).foldl (visit ord typesToDependents)
    ⟨m, sortedTypes, []⟩
  (st.addedTypeNames.foldl mapErase st.typesToDependencies, st.sortedTypes)

/-- The `while (!typesToDependencies.empty())` loop, run for at most `fuel`
evaluations of its condition; `none` means the fuel ran out. -/
def sortLoop (ord : IterationOrder) (typesToDependents : List (String × List String)) :
    Nat → Nat → List (String × TypeWithDependencies) → List SchemaType →
    Option (Except String (List SchemaType))
  | 0, _, _, _ => none
  | fuel + 1, k, m, sortedTypes =>
    if m.isEmpty then some (Except.ok sortedTypes)
    else
      let r := pass ord typesToDependents k m sortedTypes
      if r.1.length = m.length then some (Except.error "Circular dependencies in schema")
      else sortLoop ord typesToDependents fuel (k + 1) r.1 r.2

/-- The function `sortCustomTypesByDependencyOrder`, under the iteration order
`ord`.  The loop gets one more evaluation of its condition than there are
entries in `typesToDependencies`. -/
def sortCustomTypesByDependencyOrder (ord : IterationOrder) (types : List SchemaType) :
    Option (Except String (List SchemaType)) :=
  let g := buildGraph types
  sortLoop ord g.typesToDependents (g.typesToDependencies.length + 1) 0 g.typesToDependencies []

/-- The `switch` in the loop body of `generateTypes`. -/
def generateType (source : String) (type : SchemaType) (typeIndentation : Nat) : String :=
  match type.kind with
  | Kind.Object => source
  | Kind.Interface => source
  | Kind.Union => source
  | Kind.Enum => (source ++ generateEnum type typeIndentation)
      ++ generateEnumSerialization type typeIndentation
  | Kind.InputObject => source
  | Kind.Scalar => source
  | Kind.List => source
  | Kind.NonNull => source

/-- The function `generateTypes`, under the iteration order `ord`. -/
def generateTypes (ord : IterationOrder) (schema : Schema) : Option (Except String String) :=
  match sortCustomTypesByDependencyOrder ord schema.types with
  | none => none
  | some (Except.error e) => some (Except.error e)
  | some (Except.ok sortedTypes) =>
    some (Except.ok (sortedTypes.foldl (fun source type => generateType source type 0) ""))

/-! ## Specification-side definitions -/

/-- The data-model invariant of a reference, at every nesting level: the kinds
`List` and `NonNull` carry `ofType`, every other kind carries none. -/
def TypeRef.wellFormed : TypeRef → Bool
  | ⟨kind, _, some inner⟩ => (kind = Kind.List ∨ kind = Kind.NonNull) && inner.wellFormed
  | ⟨kind, _, none⟩ => kind ≠ Kind.List && kind ≠ Kind.NonNull

/-- The chain of references reached from a reference by following `ofType`,
outermost first. -/
def TypeRef.ofTypeChain : TypeRef → List TypeRef
  | ⟨kind, name, some inner⟩ => ⟨kind, name, some inner⟩ :: inner.ofTypeChain
  | ⟨kind, name, none⟩ => [⟨kind, name, none⟩]

/-- One segment in pascal case: first character upper-cased, the remaining
characters lower-cased; an empty segment stays empty. -/
def capitalizeSegment : List Char → List Char
  | [] => []
  | c :: cs => toupper c :: cs.map tolower

/-- Reference definition of the case conversion: split on the underscore,
capitalise each segment, concatenate without separator. -/
def pascalCaseReference (s : String) : String :=
  String.mk ((s.data.splitOn '_').map capitalizeSegment).flatten

/-- A string all of whose characters are ASCII. -/
def isAscii (s : String) : Bool := s.data.all (fun c => c.toNat < 128)

/-- A string of `n` spaces. -/
def spaces (n : Nat) : String := String.mk (List.replicate n ' ')

/-- Concatenation of a list of strings. -/
def concatAll : List String → String
  | [] => ""
  | s :: rest => s ++ concatAll rest

/-- The lines the enum declaration has for one enum value at nesting level `n`:
a comment line exactly when the description is non-empty, then the member. -/
def enumValueLines (n : Nat) (value : EnumValue) : List (Bool × String) :=
  (if value.description ≠ "" then [(true, spaces (4 * (n + 1)) ++ "// " ++ value.description)]
    else [])
  ++ [(false, spaces (4 * (n + 1)) ++ screamingSnakeCaseToPascalCase value.name ++ ",")]

/-- The entries of the serialization table: the enumerator and the wire name,
`none` standing for `nullptr`. -/
def serializationEntries (t : SchemaType) : List (String × Option String) :=
  (t.name ++ "::" ++ "Unknown", none)
    :: t.enumValues.map (fun value =>
        (t.name ++ "::" ++ screamingSnakeCaseToPascalCase value.name, some value.name))

/-- The text of one entry of the serialization table after the padding `pad`. -/
def renderEntry (pad : String) (entry : String × Option String) : String :=
  match entry.2 with
  | none => pad ++ "\x7b" ++ entry.1 ++ ", nullptr\x7d,\n"
  | some wire => pad ++ "\x7b" ++ entry.1 ++ ", \"" ++ wire ++ "\"\x7d,\n"

/-- The enum `Color` with values `RED` (described as warm) and `BLUE`. -/
def colorEnum : SchemaType :=
  ⟨Kind.Enum, "Color", "", [], [], [], [⟨"RED", "warm"⟩, ⟨"BLUE", ""⟩], []⟩

/-- The references of a type that the sorter hands to `addDependency`, in the
order of the calls: for each field its stripped type and then the stripped
type of each of its arguments, then the stripped type of each input field,
then each declared interface as it is. -/
def dependencyRefs (t : SchemaType) : List TypeRef :=
  t.fields.flatMap (fun field =>
      field.type.underlyingType :: field.args.map (fun arg => arg.type.underlyingType))
    ++ t.inputFields.map (fun field => field.type.underlyingType)
    ++ t.interfaces

/-- The names among a list of references that `addDependency` records: those
of the references that are named and of custom kind. -/
def recordedNames (refs : List TypeRef) : List String :=
  refs.filterMap (fun r => if isCustomType r.kind then r.name else none)

/-- The dependency names of a type. -/
def dependencyNames (t : SchemaType) : List String :=
  recordedNames (dependencyRefs t)

/-- The custom types of a list of types. -/
def customTypes (types : List SchemaType) : List SchemaType :=
  types.filter (fun t => isCustomType t.kind)

/-- The dependency relation on names among the custom types `custom`: `a`
names one of them, and `b` is one of its dependency names. -/
def DependsOn (custom : List SchemaType) (a b : String) : Prop :=
  ∃ t ∈ custom, t.name = a ∧ b ∈ dependencyNames t

/-- Every dependency name of a type of `custom` names a type of `custom`. -/
def DependenciesClosed (custom : List SchemaType) : Prop :=
  ∀ t ∈ custom, ∀ d ∈ dependencyNames t, ∃ u ∈ custom, u.name = d

/-- The dependency relation among `custom` has no cycle. -/
def Acyclic (custom : List SchemaType) : Prop :=
  ∀ a, ¬ Relation.TransGen (DependsOn custom) a a

/-- A list of types in which every type comes after the types named by its
dependency names. -/
def DepOrdered (sorted : List SchemaType) : Prop :=
  ∀ pre t post, sorted = pre ++ t :: post →
    ∀ d ∈ dependencyNames t, d ∈ pre.map (fun u => u.name)

/-- What `typesToDependents` holds once the graph is built over the custom
types `custom`: the dependents of `x` are the names of the types one of whose
dependency names is `x`. -/
def DependentsSpec (custom : List SchemaType) (dependents : List (String × List String)) : Prop :=
  ∀ x y, y ∈ dependentsOf dependents x ↔ ∃ t ∈ custom, t.name = y ∧ x ∈ dependencyNames t

/-- The invariant of a pass of the sorter over the custom types `custom`, with
the keys `todo` still to be met. -/
structure PassInv (custom : List SchemaType) (st : PassState) (todo : List String) : Prop where
  keys_nodup : (st.typesToDependencies.map Prod.fst).Nodup
  entry : ∀ e ∈ st.typesToDependencies, e.2.type.name = e.1 ∧ e.2.type ∈ custom
  deps : ∀ e ∈ st.typesToDependencies, ∀ d, d ∈ e.2.dependencies ↔
    (d ∈ dependencyNames e.2.type ∧ d ∉ st.sortedTypes.map (fun u => u.name))
  sorted_mem : ∀ t ∈ st.sortedTypes, t ∈ custom
  sorted_nodup : (st.sortedTypes.map (fun u => u.name)).Nodup
  cover : ∀ t ∈ custom, t ∈ st.sortedTypes ∨ t.name ∈ st.typesToDependencies.map Prod.fst
  excl : ∀ k ∈ st.typesToDependencies.map Prod.fst,
    (k ∈ st.sortedTypes.map (fun u => u.name) ↔ k ∈ st.addedTypeNames)
  ordered : DepOrdered st.sortedTypes
  todo_nodup : todo.Nodup
  todo_keys : ∀ k ∈ todo, k ∈ st.typesToDependencies.map Prod.fst ∧ k ∉ st.addedTypeNames

/-- The invariant of the first loop of the sorter once the custom types `done`
have been met, in that order. -/
structure GraphInv (done : List SchemaType) (g : DependencyGraph) : Prop where
  keys : g.typesToDependencies.map Prod.fst = done.map (fun u => u.name)
  types : g.typesToDependencies.map (fun e => e.2.type) = done
  deps : ∀ e ∈ g.typesToDependencies, ∀ d,
    d ∈ e.2.dependencies ↔ d ∈ dependencyNames e.2.type
  dependents : DependentsSpec done g.typesToDependents

/-- The entry `e` of `typesToDependencies` after `x` has been erased from the
dependencies of the entries whose key is in `dependents`. -/
def eraseIn (x : String) (dependents : List String) (e : String × TypeWithDependencies) :
    String × TypeWithDependencies :=
  if e.1 ∈ dependents then (e.1, ⟨e.2.type, setErase e.2.dependencies x⟩) else e

/-! ## Example schemas -/

/-- A reference to the named type `name` of kind `kind`. -/
def namedRef (kind : Kind) (name : String) : TypeRef := ⟨kind, some name, none⟩

/-- The scalar type `Int`. -/
def intScalar : SchemaType := ⟨Kind.Scalar, "Int", "", [], [], [], [], []⟩

/-- The enum type `SomeEnum`. -/
def someEnum : SchemaType :=
  ⟨Kind.Enum, "SomeEnum", "", [], [], [], [⟨"FIRST_VALUE", "the first"⟩], []⟩

/-- The input object type `SomeInputObject`, with one scalar input field. -/
def someInputObject : SchemaType :=
  ⟨Kind.InputObject, "SomeInputObject", "", [], [⟨"count", "", namedRef Kind.Scalar "Int"⟩],
    [], [], []⟩

/-- The argument `bar: SomeInputObject!`. -/
def barArgument : InputValue :=
  ⟨"bar", "", ⟨Kind.NonNull, none, some (namedRef Kind.InputObject "SomeInputObject")⟩⟩

/-- The field `foo(bar: SomeInputObject!): SomeEnum`. -/
def fooField : Field := ⟨"foo", "", [barArgument], namedRef Kind.Enum "SomeEnum"⟩

/-- The object type `Query` with the single field `foo`. -/
def queryObject : SchemaType := ⟨Kind.Object, "Query", "", [fooField], [], [], [], []⟩

/-- The object type `A` with a field of type `B`. -/
def objectA : SchemaType :=
  ⟨Kind.Object, "A", "", [⟨"b", "", [], namedRef Kind.Object "B"⟩], [], [], [], []⟩

/-- The object type `B` with a field of type `[A]`. -/
def objectB : SchemaType :=
  ⟨Kind.Object, "B", "", [⟨"a", "", [], ⟨Kind.List, none, some (namedRef Kind.Object "A")⟩⟩],
    [], [], [], []⟩

/-- The object type `Node` with a field of its own type. -/
def selfObject : SchemaType :=
  ⟨Kind.Object, "Node", "", [⟨"next", "", [], namedRef Kind.Object "Node"⟩], [], [], [], []⟩

/-- The scalar type `String`. -/
def stringScalar : SchemaType := ⟨Kind.Scalar, "String", "", [], [], [], [], []⟩

/-- The object type `Mutation` with the field `submit(input: SomeInputObject): Int`. -/
def mutationObject : SchemaType :=
  ⟨Kind.Object, "Mutation", "",
    [⟨"submit", "", [⟨"input", "", namedRef Kind.InputObject "SomeInputObject"⟩],
      namedRef Kind.Scalar "Int"⟩], [], [], [], []⟩

/-- A schema whose types are all scalars. -/
def scalarSchema : Schema := ⟨none, none, none, [intScalar, stringScalar]⟩

/-- A schema with custom types but without enum types. -/
def enumFreeSchema : Schema :=
  ⟨none, some ⟨"Mutation"⟩, none, [mutationObject, intScalar, someInputObject]⟩


/-- What `generateTypes` appends for one sorted type: the declaration and the
serialization table at nesting level zero for an enum, nothing otherwise. -/
def emittedFor (t : SchemaType) : String :=
  if t.kind = Kind.Enum then generateEnum t 0 ++ generateEnumSerialization t 0 else ""

/-- A schema with the enum `SomeEnum` next to the cycle between `A` and `B`. -/
def cyclicSchema : Schema := ⟨none, none, none, [someEnum, objectA, objectB]⟩

/-- A schema with the two enums `Color` and `SomeEnum` and the object `Query`. -/
def enumSchema : Schema :=
  ⟨some ⟨"Query"⟩, none, none, [queryObject, colorEnum, someInputObject, someEnum]⟩

/-- The object type `Orphan` with a field of the object type `Missing`, which
is not declared. -/
def orphanObject : SchemaType :=
  ⟨Kind.Object, "Orphan", "", [⟨"missing", "", [], namedRef Kind.Object "Missing"⟩],
    [], [], [], []⟩

/-- A type with its `possibleTypes` emptied. -/
def withoutPossibleTypes (t : SchemaType) : SchemaType :=
  ⟨t.kind, t.name, t.description, t.fields, t.inputFields, t.interfaces, t.enumValues, []⟩

/-- The part of the graph that holds the dependency sets: `typesToDependents`
and, for each key of `typesToDependencies`, the set of its dependencies. -/
def dependencySets (g : DependencyGraph) :
    List (String × List String) × List (String × List String) :=
  (g.typesToDependents, g.typesToDependencies.map (fun e => (e.1, e.2.dependencies)))

/-- The union type `SearchResult`, whose possible types name `Article`. -/
def searchResultUnion : SchemaType :=
  ⟨Kind.Union, "SearchResult", "", [], [], [], [], [namedRef Kind.Object "Article"]⟩

/-- The union type `SearchResult` without possible types. -/
def searchResultBare : SchemaType :=
  ⟨Kind.Union, "SearchResult", "", [], [], [], [], []⟩

/-- The object type `Article` with a field of type `SearchResult`. -/
def articleObject : SchemaType :=
  ⟨Kind.Object, "Article", "", [⟨"related", "", [], namedRef Kind.Union "SearchResult"⟩],
    [], [], [], []⟩


/-- The states in which the condition of the `while` loop is evaluated:
`LoopState ord types k m sorted` holds when `k` passes have completed without
error and have left the working set `m` and the result `sorted`. -/
inductive LoopState (ord : IterationOrder) (types : List SchemaType) :
    Nat → List (String × TypeWithDependencies) → List SchemaType → Prop
  | start : LoopState ord types 0 (buildGraph types).typesToDependencies []
  | next (k : Nat) (m : List (String × TypeWithDependencies)) (sorted : List SchemaType) :
      LoopState ord types k m sorted → m ≠ [] →
      (pass ord (buildGraph types).typesToDependents k m sorted).1.length ≠ m.length →
      LoopState ord types (k + 1) (pass ord (buildGraph types).typesToDependents k m sorted).1
        (pass ord (buildGraph types).typesToDependents k m sorted).2


/-- The upper-case ASCII letters. -/
def upperLetters : List Char := "ABCDEFGHIJKLMNOPQRSTUVWXYZ".data

/-- A well-formed screaming-snake-case segment list: every segment is non-empty
and consists of upper-case ASCII letters. -/
def wellFormedSegments (segments : List (List Char)) : Bool :=
  segments.all (fun segment => segment ≠ [] && segment.all (fun c => c ∈ upperLetters))

/-- A well-formed screaming-snake-case name: one or more non-empty segments of
upper-case ASCII letters separated by single underscores. -/
def wellFormedSnake (s : String) : Bool :=
  wellFormedSegments (s.data.splitOn '_')

/-- Reading a pascal-case identifier back: an upper-case letter starts a
segment, preceded by an underscore unless it is the first character, and any
other character is upper-cased. -/
def snakeOfPascal : Bool → List Char → List Char
  | _, [] => []
  | first, c :: cs =>
    if c ∈ upperLetters then
      (if first then [c] else ['_', c]) ++ snakeOfPascal false cs
    else toupper c :: snakeOfPascal false cs

/-- The member identifiers declared by `generateEnum`: the converted name of
each enum value, then the synthetic member. -/
def memberIdentifiers (t : SchemaType) : List String :=
  t.enumValues.map (fun value => screamingSnakeCaseToPascalCase value.name) ++ [unknownEnumCase]

/-- An enum whose two value names differ only in a doubled underscore. -/
def doubledUnderscoreEnum : SchemaType :=
  ⟨Kind.Enum, "Mode", "", [], [], [], [⟨"FOO_BAR", ""⟩, ⟨"FOO__BAR", ""⟩], []⟩

/-- An enum with a value named `UNKNOWN`. -/
def unknownValueEnum : SchemaType :=
  ⟨Kind.Enum, "Status", "", [], [], [], [⟨"ACTIVE", ""⟩, ⟨"UNKNOWN", ""⟩], []⟩


/-! ## Decoding (`from_json`)

The library `nlohmann/json` is not part of the sources.  Its value type and
the member functions the decoders call are modelled here; the decoders
themselves follow `src/main.cpp`. -/

/-- Modelled from the spec: the value type `nlohmann::json` of the library,
"a JSON document" with objects, arrays, strings, numbers, booleans and null.
An object is a list of members with unique keys. -/
inductive Json where
  | null
  | boolean (b : Bool)
  | number (n : Int)
  | string (s : String)
  | array (elems : List Json)
  | object (members : List (String × Json))

/-- Modelled from the spec: the two exceptions of the library that decoding
can raise ("a required field/shape is missing at decode time"): `out_of_range`
for an absent key and `type_error` for a value of the wrong shape. -/
inductive JsonError where
  | outOfRange
  | typeError
  deriving DecidableEq, Repr

/-- The member of an object with the given key, if any. -/
def findMember (members : List (String × Json)) (key : String) : Option Json :=
  (members.find? (fun member => member.1 = key)).map Prod.snd

/-- Modelled from the spec: the library call `json.find(key)`; `none` stands
for `json.end()`, which is also the result on a value that is not an object. -/
def Json.find (json : Json) (key : String) : Option Json :=
  match json with
  | Json.object members => findMember members key
  | _ => none

/-- Modelled from the spec: the library call `json.at(key)`: "required keys
raise a decode error if absent", and a value that is not an object raises a
type error. -/
def Json.atKey (json : Json) (key : String) : Except JsonError Json :=
  match json with
  | Json.object members =>
    match findMember members key with
    | some v => Except.ok v
    | none => Except.error JsonError.outOfRange
  | _ => Except.error JsonError.typeError

/-- Modelled from the spec: the library call `json.is_null()`. -/
def Json.isNull : Json → Bool
  | Json.null => true
  | _ => false

/-- Modelled from the spec: the library conversion `get_to(std::string &)`,
which raises a type error on a value that is not a string. -/
def getString : Json → Except JsonError String
  | Json.string s => Except.ok s
  | _ => Except.error JsonError.typeError

/-- Modelled from the spec: the library conversion `get_to(std::vector<T> &)`,
which raises a type error on a value that is not an array and otherwise
converts the elements in order. -/
def getVector {α : Type} (decode : Json → Except JsonError α) : Json → Except JsonError (List α)
  | Json.array elems => elems.mapM decode
  | _ => Except.error JsonError.typeError

/-- The table given to `NLOHMANN_JSON_SERIALIZE_ENUM(Schema::Type::Kind, ...)`. -/
def kindTable : List (Kind × String) :=
  [(Kind.Scalar, "SCALAR"), (Kind.Object, "OBJECT"), (Kind.Interface, "INTERFACE"),
   (Kind.Union, "UNION"), (Kind.Enum, "ENUM"), (Kind.InputObject, "INPUT_OBJECT"),
   (Kind.List, "LIST"), (Kind.NonNull, "NON_NULL")]

/-- Modelled from the spec: the `from_json` that the library macro
`NLOHMANN_JSON_SERIALIZE_ENUM` generates: the enumerator of the first pair of
the table whose JSON value equals the input, and the enumerator of the first
pair of the table when there is none. -/
def kindFromJson : Json → Except JsonError Kind
  | Json.string s =>
    match kindTable.find? (fun pair => pair.2 = s) with
    | some pair => Except.ok pair.1
    | none => Except.ok Kind.Scalar
  | _ => Except.ok Kind.Scalar

/-- The template `get_value_to(json, key, T & target)`: `json.at(key).get_to(target)`. -/
def getValueTo {α : Type} (decode : Json → Except JsonError α) (json : Json) (key : String) :
    Except JsonError α :=
  match json.atKey key with
  | Except.error e => Except.error e
  | Except.ok value => decode value

/-- The member function `adl_serializer<std::optional<T>>::from_json`, and the
one for `BoxedOptional<T>`: a null value resets the target. -/
def optionalFromJson {α : Type} (decode : Json → Except JsonError α) (json : Json) :
    Except JsonError (Option α) :=
  if json.isNull then Except.ok none
  else
    match decode json with
    | Except.error e => Except.error e
    | Except.ok value => Except.ok (some value)

/-- The templates `get_value_to(json, key, std::optional<T> & target)` and
`get_value_to(json, key, BoxedOptional<T> & target)`: an absent key resets the
target. -/
def getOptionalValueTo {α : Type} (decode : Json → Except JsonError α) (json : Json)
    (key : String) : Except JsonError (Option α) :=
  match json.find key with
  | some value => optionalFromJson decode value
  | none => Except.ok none

/-- The function `from_json(Json const &, Schema::Type::TypeRef &)`.  The third
call, `get_value_to(json, "ofType", type.ofType)`, is written out, because it
decodes the nested reference with this same function. -/
def fromJsonTypeRef (json : Json) : Except JsonError TypeRef :=
  match getValueTo kindFromJson json "kind" with
  | Except.error e => Except.error e
  | Except.ok kind =>
    match getOptionalValueTo getString json "name" with
    | Except.error e => Except.error e
    | Except.ok name =>
      match h : json.find "ofType" with
      | none => Except.ok ⟨kind, name, none⟩
      | some value =>
        if value.isNull then Except.ok ⟨kind, name, none⟩
        else
          match fromJsonTypeRef value with
          | Except.error e => Except.error e
          | Except.ok inner => Except.ok ⟨kind, name, some inner⟩
termination_by sizeOf json
decreasing_by
  cases json with
  | object members =>
    simp only [Json.find, findMember, Option.map_eq_some'] at h
    obtain ⟨member, hfound, hvalue⟩ := h
    have hlt := List.sizeOf_lt_of_mem (List.mem_of_find?_eq_some hfound)
    obtain ⟨k, v⟩ := member
    simp only at hvalue
    rw [hvalue] at hlt
    simp only [Json.object.sizeOf_spec, Prod.mk.sizeOf_spec] at hlt ⊢
    omega
  | _ => simp [Json.find] at h

/-- The function `from_json(Json const &, Schema::Type::InputValue &)`. -/
def fromJsonInputValue (json : Json) : Except JsonError InputValue :=
  match getValueTo getString json "name" with
  | Except.error e => Except.error e
  | Except.ok name =>
    match getValueTo getString json "description" with
    | Except.error e => Except.error e
    | Except.ok description =>
      match getValueTo fromJsonTypeRef json "type" with
      | Except.error e => Except.error e
      | Except.ok type => Except.ok ⟨name, description, type⟩

/-- The function `from_json(Json const &, Schema::Type::Field &)`. -/
def fromJsonField (json : Json) : Except JsonError Field :=
  match getValueTo getString json "name" with
  | Except.error e => Except.error e
  | Except.ok name =>
    match getValueTo getString json "description" with
    | Except.error e => Except.error e
    | Except.ok description =>
      match getValueTo (getVector fromJsonInputValue) json "args" with
      | Except.error e => Except.error e
      | Except.ok args =>
        match getValueTo fromJsonTypeRef json "type" with
        | Except.error e => Except.error e
        | Except.ok type => Except.ok ⟨name, description, args, type⟩

/-- The function `from_json(Json const &, Schema::Type::EnumValue &)`. -/
def fromJsonEnumValue (json : Json) : Except JsonError EnumValue :=
  match getValueTo getString json "name" with
  | Except.error e => Except.error e
  | Except.ok name =>
    match getValueTo getString json "description" with
    | Except.error e => Except.error e
    | Except.ok description => Except.ok ⟨name, description⟩

/-- The function `from_json(Json const &, Schema::Type &)`. -/
def fromJsonType (json : Json) : Except JsonError SchemaType :=
  match getValueTo kindFromJson json "kind" with
  | Except.error e => Except.error e
  | Except.ok kind =>
    match getValueTo getString json "name" with
    | Except.error e => Except.error e
    | Except.ok name =>
      match getValueTo getString json "description" with
      | Except.error e => Except.error e
      | Except.ok description =>
        match getValueTo (getVector fromJsonField) json "fields" with
        | Except.error e => Except.error e
        | Except.ok fields =>
          match getValueTo (getVector fromJsonInputValue) json "inputFields" with
          | Except.error e => Except.error e
          | Except.ok inputFields =>
            match getValueTo (getVector fromJsonTypeRef) json "interfaces" with
            | Except.error e => Except.error e
            | Except.ok interfaces =>
              match getValueTo (getVector fromJsonEnumValue) json "enumValues" with
              | Except.error e => Except.error e
              | Except.ok enumValues =>
                match getValueTo (getVector fromJsonTypeRef) json "possibleTypes" with
                | Except.error e => Except.error e
                | Except.ok possibleTypes =>
                  Except.ok ⟨kind, name, description, fields, inputFields, interfaces,
                    enumValues, possibleTypes⟩

/-- The JSON object of the enum `Color` with the keys `kind`, `name`,
`description` and `enumValues` only. -/
def colorJson : Json :=
  Json.object [("kind", Json.string "ENUM"), ("name", Json.string "Color"),
    ("description", Json.string ""),
    ("enumValues", Json.array [
      Json.object [("name", Json.string "RED"), ("description", Json.string "warm")],
      Json.object [("name", Json.string "BLUE"), ("description", Json.string "")]])]

/-- The JSON object of the enum `Color` with all eight keys, the payloads that
do not apply to an enum being empty arrays. -/
def colorFullJson : Json :=
  Json.object [("kind", Json.string "ENUM"), ("name", Json.string "Color"),
    ("description", Json.string ""), ("fields", Json.array []),
    ("inputFields", Json.array []), ("interfaces", Json.array []),
    ("enumValues", Json.array [
      Json.object [("name", Json.string "RED"), ("description", Json.string "warm")],
      Json.object [("name", Json.string "BLUE"), ("description", Json.string "")]]),
    ("possibleTypes", Json.array [])]


/-! ## Theorems -/

/-! ## Theorems: type references -/

theorem underlyingType_ofType (r : TypeRef) : r.underlyingType.ofType = none := by
  match r with
  | ⟨_, _, some inner⟩ =>
    rw [TypeRef.underlyingType]
    exact underlyingType_ofType inner
  | ⟨_, _, none⟩ => rfl

theorem underlyingType_of_none (r : TypeRef) (h : r.ofType = none) : r.underlyingType = r := by
  obtain ⟨kind, name, ofType⟩ := r
  cases ofType with
  | none => rfl
  | some inner => cases h

/-- C5: `underlyingType` is idempotent, and a reference whose `ofType` is
absent is returned as it is. -/
theorem underlyingType_idempotent (r : TypeRef) :
    r.underlyingType.underlyingType = r.underlyingType ∧
    (r.ofType = none → r.underlyingType = r) :=
  ⟨underlyingType_of_none _ (underlyingType_ofType r), underlyingType_of_none r⟩

theorem underlyingType_idempotent_witness :
    (TypeRef.mk Kind.Object (some "A") none).ofType = none ∧
    (TypeRef.mk Kind.Object (some "A") none).underlyingType
      = TypeRef.mk Kind.Object (some "A") none :=
  ⟨rfl, (underlyingType_idempotent (TypeRef.mk Kind.Object (some "A") none)).2 rfl⟩

/-- C6: on a reference that satisfies the data-model invariant at every level,
`underlyingType` is the last reference of the `ofType` chain, and its kind is
neither `List` nor `NonNull`. -/
theorem underlyingType_innermost (r : TypeRef) (h : r.wellFormed = true) :
    r.ofTypeChain.getLast? = some r.underlyingType ∧
    r.underlyingType.kind ≠ Kind.List ∧ r.underlyingType.kind ≠ Kind.NonNull := by
  match r with
  | ⟨kind, name, some inner⟩ =>
    simp only [TypeRef.wellFormed, Bool.and_eq_true] at h
    have ih := underlyingType_innermost inner h.2
    refine ⟨?_, ?_⟩
    · rw [TypeRef.ofTypeChain, TypeRef.underlyingType, List.getLast?_cons, ih.1]
      rfl
    · rw [TypeRef.underlyingType]
      exact ih.2
  | ⟨kind, name, none⟩ =>
    simp only [TypeRef.wellFormed, Bool.and_eq_true, decide_eq_true_eq] at h
    exact ⟨rfl, h⟩

theorem underlyingType_innermost_witness :
    (TypeRef.mk Kind.NonNull none (some (TypeRef.mk Kind.List none
      (some (TypeRef.mk Kind.Enum (some "Color") none))))).wellFormed = true ∧
    (TypeRef.mk Kind.NonNull none (some (TypeRef.mk Kind.List none
      (some (TypeRef.mk Kind.Enum (some "Color") none))))).ofTypeChain.getLast?
      = some (TypeRef.mk Kind.NonNull none (some (TypeRef.mk Kind.List none
      (some (TypeRef.mk Kind.Enum (some "Color") none))))).underlyingType :=
  ⟨by decide, (underlyingType_innermost _ (by decide)).1⟩

/-! ## Theorems: case conversion -/

theorem pascalStep_foldl (cs : List Char) : ∀ (acc : List Char) (first : Bool),
    (cs.foldl pascalStep (acc, first)).1 =
      acc ++ (match cs.splitOn '_' with
        | [] => []
        | seg :: rest =>
          (if first then capitalizeSegment seg else seg.map tolower)
            ++ (rest.map capitalizeSegment).flatten) := by
  induction cs with
  | nil =>
    intro acc first
    cases first <;> simp [List.splitOn, List.splitOnP_nil, capitalizeSegment]
  | cons c cs ih =>
    intro acc first
    rw [List.foldl_cons]
    have hsplit : (c :: cs).splitOn '_' =
        if c = '_' then [] :: cs.splitOn '_'
        else List.modifyHead (List.cons c) (cs.splitOn '_') := by
      simp only [List.splitOn, List.splitOnP_cons, beq_iff_eq]
    rw [hsplit]
    by_cases hc : c = '_'
    · have hstep : pascalStep (acc, first) c = (acc, true) := by simp [pascalStep, hc]
      rw [hstep, ih acc true, if_pos hc]
      cases hs : cs.splitOn '_' with
      | nil => cases first <;> simp [capitalizeSegment]
      | cons seg rest => cases first <;> simp [capitalizeSegment]
    · rw [if_neg hc]
      cases hs : cs.splitOn '_' with
      | nil => exact absurd hs (List.splitOnP_ne_nil _ _)
      | cons seg rest =>
        cases first with
        | true =>
          have hstep : pascalStep (acc, true) c = (acc ++ [toupper c], false) := by
            simp [pascalStep, hc]
          rw [hstep, ih, hs]
          simp [capitalizeSegment]
        | false =>
          have hstep : pascalStep (acc, false) c = (acc ++ [tolower c], false) := by
            simp [pascalStep, hc]
          rw [hstep, ih, hs]
          simp

/-- C7: on every ASCII string `screamingSnakeCaseToPascalCase` agrees with the
reference definition (split on the underscore, capitalise each segment,
concatenate), and the four listed instances hold. -/
theorem screamingSnakeCaseToPascalCase_eq_reference :
    (∀ s : String, isAscii s = true →
      screamingSnakeCaseToPascalCase s = pascalCaseReference s) ∧
    screamingSnakeCaseToPascalCase "FOO_BAR" = "FooBar" ∧
    screamingSnakeCaseToPascalCase "A" = "A" ∧
    screamingSnakeCaseToPascalCase "" = "" ∧
    screamingSnakeCaseToPascalCase "_FOO" = "Foo" := by
  refine ⟨fun s _ => ?_, by decide, by decide, by decide, by decide⟩
  unfold screamingSnakeCaseToPascalCase pascalCaseReference
  rw [pascalStep_foldl]
  cases hs : s.data.splitOn '_' with
  | nil => simp
  | cons seg rest => simp

theorem screamingSnakeCaseToPascalCase_eq_reference_witness :
    isAscii "FOO_BAR" = true ∧
    screamingSnakeCaseToPascalCase "FOO_BAR" = pascalCaseReference "FOO_BAR" :=
  ⟨by decide, screamingSnakeCaseToPascalCase_eq_reference.1 "FOO_BAR" (by decide)⟩

/-! ## Theorems: generators -/

theorem indent_eq_spaces (k : Nat) (h : 4 * k < sizeModulus) : indent k = spaces (4 * k) := by
  have hk : k * spacesPerIndent % sizeModulus = 4 * k := by
    rw [spacesPerIndent, Nat.mul_comm]
    exact Nat.mod_eq_of_lt h
  rw [indent, hk, spaces]

theorem foldl_append_eq_concatAll {α : Type} (f : α → String) (l : List α) :
    ∀ init : String, l.foldl (fun g v => g ++ f v) init = init ++ concatAll (l.map f) := by
  induction l with
  | nil => intro init; simp [concatAll]
  | cons v l ih => intro init; simp [concatAll, ih, String.append_assoc]

theorem generateEnumSerialization_eq_indent (t : SchemaType) (n : Nat) :
    generateEnumSerialization t n =
      indent n ++ "NLOHMANN_JSON_SERIALIZE_ENUM(" ++ t.name ++ ", \x7b\n"
        ++ concatAll ((serializationEntries t).map
            (renderEntry (indent ((n + 1) % sizeModulus))))
        ++ indent n ++ "\x7d);\n\n" := by
  unfold generateEnumSerialization
  simp only []
  rw [foldl_append_eq_concatAll]
  simp [serializationEntries, renderEntry, concatAll, unknownEnumCase,
    String.append_assoc, Function.comp_def]

/-- C9: for every type `t` with `k` enum values and every level `n`, the text
of `generateEnumSerialization t n` is the header, the rendering of the
entries of the table and the footer, where the table has exactly `k + 1`
entries: first the entry pairing `t.name::Unknown` with `nullptr`, then for
each enum value in source order the entry pairing the converted name with the
original name as a quoted string.  The padding is the one `indent` computes;
while `4 * (n + 1) < 2 ^ 64` it is `4 * n` spaces for the header and footer
and `4 * (n + 1)` spaces for the entries.  For `Color` the entries are those
the claim lists. -/
theorem generateEnumSerialization_eq_entries (t : SchemaType) (n : Nat) :
    generateEnumSerialization t n =
      indent n ++ "NLOHMANN_JSON_SERIALIZE_ENUM(" ++ t.name ++ ", \x7b\n"
        ++ concatAll ((serializationEntries t).map
            (renderEntry (indent ((n + 1) % sizeModulus))))
        ++ indent n ++ "\x7d);\n\n" ∧
    (4 * (n + 1) < 2 ^ 64 →
      generateEnumSerialization t n =
        spaces (4 * n) ++ "NLOHMANN_JSON_SERIALIZE_ENUM(" ++ t.name ++ ", \x7b\n"
          ++ concatAll ((serializationEntries t).map (renderEntry (spaces (4 * (n + 1)))))
          ++ spaces (4 * n) ++ "\x7d);\n\n") ∧
    (serializationEntries t).length = t.enumValues.length + 1 ∧
    (serializationEntries t).head? = some (t.name ++ "::" ++ "Unknown", none) ∧
    (serializationEntries t).tail = t.enumValues.map (fun value =>
      (t.name ++ "::" ++ screamingSnakeCaseToPascalCase value.name, some value.name)) ∧
    serializationEntries colorEnum =
      [("Color::Unknown", none), ("Color::Red", some "RED"), ("Color::Blue", some "BLUE")] := by
  refine ⟨generateEnumSerialization_eq_indent t n, ?_, by simp [serializationEntries], rfl, rfl,
    by decide⟩
  intro hbound
  have hb : 4 * (n + 1) < sizeModulus := hbound
  have hmod : (n + 1) % sizeModulus = n + 1 := Nat.mod_eq_of_lt (by omega)
  rw [generateEnumSerialization_eq_indent, hmod, indent_eq_spaces n (by omega),
    indent_eq_spaces (n + 1) hb]

theorem generateEnumSerialization_eq_entries_witness :
    4 * (0 + 1) < 2 ^ 64 ∧
    generateEnumSerialization colorEnum 0 =
      spaces (4 * 0) ++ "NLOHMANN_JSON_SERIALIZE_ENUM(" ++ colorEnum.name ++ ", \x7b\n"
        ++ concatAll ((serializationEntries colorEnum).map (renderEntry (spaces (4 * (0 + 1)))))
        ++ spaces (4 * 0) ++ "\x7d);\n\n" :=
  ⟨by decide, (generateEnumSerialization_eq_entries colorEnum 0).2.1 (by decide)⟩


/-! ## Theorems: hash containers -/

theorem mem_setInsert (s : List String) (x y : String) :
    y ∈ setInsert s x ↔ y ∈ s ∨ y = x := by
  unfold setInsert
  by_cases h : x ∈ s
  · rw [if_pos h]
    constructor
    · exact Or.inl
    · rintro (h1 | h1)
      · exact h1
      · rw [h1]; exact h
  · rw [if_neg h]; simp

theorem mem_setErase (s : List String) (x y : String) :
    y ∈ setErase s x ↔ y ∈ s ∧ y ≠ x := by
  simp [setErase]

theorem mapFind_mapModify {β : Type} (dflt : β) (f : β → β) (m : List (String × β))
    (key k : String) :
    mapFind (mapModify dflt f m key) k =
      if k = key then some (f ((mapFind m key).getD dflt)) else mapFind m k := by
  induction m with
  | nil =>
    by_cases h : k = key
    · simp [mapModify, mapFind, h]
    · have h2 : ¬ key = k := fun e => h e.symm
      simp [mapModify, mapFind, h, h2]
  | cons e m ih =>
    obtain ⟨k0, v0⟩ := e
    by_cases h0 : k0 = key
    · by_cases h : k = key
      · simp [mapModify, mapFind, h0, h]
      · have h2 : ¬ key = k := fun e => h e.symm
        simp [mapModify, mapFind, h0, h, h2]
    · by_cases h : k = key
      · have hk : ¬ k0 = k := by rw [h]; exact h0
        simp only [mapModify, mapFind, if_neg h0, if_neg hk, ih, if_pos h]
      · simp only [mapModify, mapFind, if_neg h0, ih, if_neg h]

theorem mapModify_of_not_mem {β : Type} (dflt : β) (f : β → β) (m : List (String × β))
    (key : String) (h : key ∉ m.map Prod.fst) :
    mapModify dflt f m key = m ++ [(key, f dflt)] := by
  induction m with
  | nil => rfl
  | cons e m ih =>
    obtain ⟨k0, v0⟩ := e
    simp only [List.map_cons, List.mem_cons, not_or] at h
    have h0 : ¬ k0 = key := fun e => h.1 e.symm
    simp only [mapModify, if_neg h0, ih h.2, List.cons_append]

theorem mapModify_of_mem {β : Type} (dflt : β) (f : β → β) (m : List (String × β))
    (key : String) (hn : (m.map Prod.fst).Nodup) (h : key ∈ m.map Prod.fst) :
    mapModify dflt f m key = m.map (fun e => if e.1 = key then (e.1, f e.2) else e) := by
  induction m with
  | nil => simp at h
  | cons e m ih =>
    obtain ⟨k0, v0⟩ := e
    simp only [List.map_cons, List.nodup_cons] at hn
    by_cases h0 : k0 = key
    · have hrest : m.map (fun e => if e.1 = key then (e.1, f e.2) else e) = m := by
        conv_rhs => rw [← List.map_id m]
        apply List.map_congr_left
        intro e he
        have : e.1 ≠ key := by
          intro hek
          apply hn.1
          rw [h0, ← hek]
          exact List.mem_map_of_mem Prod.fst he
        simp [this]
      simp only [mapModify, if_pos h0, List.map_cons, hrest]
    · have hmem : key ∈ m.map Prod.fst := by
        simp only [List.map_cons, List.mem_cons] at h
        rcases h with h | h
        · exact absurd h.symm h0
        · exact h
      simp only [mapModify, if_neg h0, List.map_cons, ih hn.2 hmem]

theorem mapFind_of_mem {β : Type} (m : List (String × β)) (hn : (m.map Prod.fst).Nodup)
    (e : String × β) (he : e ∈ m) : mapFind m e.1 = some e.2 := by
  induction m with
  | nil => simp at he
  | cons e0 m ih =>
    obtain ⟨k0, v0⟩ := e0
    simp only [List.map_cons, List.nodup_cons] at hn
    rcases List.mem_cons.1 he with h | h
    · rw [h]; simp [mapFind]
    · have : ¬ k0 = e.1 := by
        intro hk
        apply hn.1
        rw [hk]
        exact List.mem_map_of_mem Prod.fst h
      simp only [mapFind, if_neg this, ih hn.2 h]

theorem mem_of_mapFind {β : Type} (m : List (String × β)) (key : String) (v : β)
    (h : mapFind m key = some v) : (key, v) ∈ m := by
  induction m with
  | nil => simp [mapFind] at h
  | cons e0 m ih =>
    obtain ⟨k0, v0⟩ := e0
    by_cases h0 : k0 = key
    · simp only [mapFind, if_pos h0, Option.some.injEq] at h
      rw [h0, h]; exact List.mem_cons_self _ _
    · simp only [mapFind, if_neg h0] at h
      exact List.mem_cons_of_mem _ (ih h)

theorem mapFind_isSome_of_mem {β : Type} (m : List (String × β)) (key : String)
    (h : key ∈ m.map Prod.fst) : ∃ v, mapFind m key = some v := by
  induction m with
  | nil => simp at h
  | cons e0 m ih =>
    obtain ⟨k0, v0⟩ := e0
    by_cases h0 : k0 = key
    · exact ⟨v0, by simp [mapFind, h0]⟩
    · simp only [List.map_cons, List.mem_cons] at h
      rcases h with h | h
      · exact absurd h.symm h0
      · obtain ⟨v, hv⟩ := ih h
        exact ⟨v, by simp only [mapFind, if_neg h0, hv]⟩

theorem foldl_mapErase {β : Type} (added : List String) : ∀ m : List (String × β),
    added.foldl mapErase m = m.filter (fun e => decide (e.1 ∉ added)) := by
  induction added with
  | nil => intro m; simp
  | cons a added ih =>
    intro m
    rw [List.foldl_cons, ih, mapErase, List.filter_filter]
    apply List.filter_congr
    intro e _
    simp only [List.mem_cons, not_or, ne_eq, decide_not, Bool.decide_and]
    exact Bool.and_comm _ _


/-! ## Theorems: graph construction -/

theorem mem_recordedNames (refs : List TypeRef) (x : String) :
    x ∈ recordedNames refs ↔ ∃ r ∈ refs, isCustomType r.kind = true ∧ r.name = some x := by
  unfold recordedNames
  rw [List.mem_filterMap]
  constructor
  · rintro ⟨r, hr, h⟩
    by_cases hc : isCustomType r.kind = true
    · rw [if_pos hc] at h
      exact ⟨r, hr, hc, h⟩
    · rw [if_neg hc] at h
      cases h
  · rintro ⟨r, hr, hc, h⟩
    exact ⟨r, hr, by rw [if_pos hc]; exact h⟩

theorem recordedNames_append (a b : List TypeRef) :
    recordedNames (a ++ b) = recordedNames a ++ recordedNames b := by
  simp [recordedNames, List.filterMap_append]

theorem dependentsOf_mapModify (dependents : List (String × List String))
    (f : List String → List String) (key x : String) :
    dependentsOf (mapModify [] f dependents key) x =
      if x = key then f (dependentsOf dependents key) else dependentsOf dependents x := by
  unfold dependentsOf
  rw [mapFind_mapModify]
  by_cases h : x = key
  · simp [h]
  · simp [h]

theorem addDependency_spec (typeName : String) (st : List (String × List String) × List String)
    (r : TypeRef) :
    (∀ d, d ∈ (addDependency typeName st r).2 ↔ d ∈ st.2 ∨ d ∈ recordedNames [r]) ∧
    (∀ x y, y ∈ dependentsOf (addDependency typeName st r).1 x ↔
      y ∈ dependentsOf st.1 x ∨ (y = typeName ∧ x ∈ recordedNames [r])) := by
  have hrec : ∀ x, x ∈ recordedNames [r] ↔ (isCustomType r.kind = true ∧ r.name = some x) := by
    intro x
    rw [mem_recordedNames]
    simp
  unfold addDependency
  cases hn : r.name with
  | none =>
    simp only [hrec, hn]
    constructor
    · intro d; simp
    · intro x y; simp
  | some n =>
    by_cases hc : isCustomType r.kind = true
    · simp only [hrec, hn, hc, if_true, true_and, Option.some.injEq]
      constructor
      · intro d
        rw [mem_setInsert]
        constructor
        · rintro (h | h)
          · exact Or.inl h
          · exact Or.inr h.symm
        · rintro (h | h)
          · exact Or.inl h
          · exact Or.inr h.symm
      · intro x y
        rw [dependentsOf_mapModify]
        by_cases hx : x = n
        · rw [if_pos hx, mem_setInsert, hx]
          simp
        · rw [if_neg hx]
          have : ¬ n = x := fun e => hx e.symm
          simp [this]
    · simp only [hrec, hn, hc]
      constructor
      · intro d; simp
      · intro x y; simp

theorem foldl_addDependency_spec (typeName : String) (refs : List TypeRef) :
    ∀ st : List (String × List String) × List String,
    (∀ d, d ∈ (refs.foldl (addDependency typeName) st).2 ↔ d ∈ st.2 ∨ d ∈ recordedNames refs) ∧
    (∀ x y, y ∈ dependentsOf (refs.foldl (addDependency typeName) st).1 x ↔
      y ∈ dependentsOf st.1 x ∨ (y = typeName ∧ x ∈ recordedNames refs)) := by
  induction refs with
  | nil =>
    intro st
    simp [recordedNames]
  | cons r refs ih =>
    intro st
    rw [List.foldl_cons]
    have h1 := addDependency_spec typeName st r
    have h2 := ih (addDependency typeName st r)
    have happ : recordedNames (r :: refs) = recordedNames [r] ++ recordedNames refs :=
      recordedNames_append [r] refs
    constructor
    · intro d
      rw [h2.1, h1.1, happ, List.mem_append, or_assoc]
    · intro x y
      rw [h2.2, h1.2, happ, List.mem_append]
      constructor
      · rintro ((h | ⟨hy, hx⟩) | ⟨hy, hx⟩)
        · exact Or.inl h
        · exact Or.inr ⟨hy, Or.inl hx⟩
        · exact Or.inr ⟨hy, Or.inr hx⟩
      · rintro (h | ⟨hy, hx | hx⟩)
        · exact Or.inl (Or.inl h)
        · exact Or.inl (Or.inr ⟨hy, hx⟩)
        · exact Or.inr ⟨hy, hx⟩

theorem foldl_addFieldDependencies (typeName : String) (fields : List Field) :
    ∀ st : List (String × List String) × List String,
    fields.foldl (addFieldDependencies typeName) st =
      (fields.flatMap (fun field =>
        field.type.underlyingType :: field.args.map (fun arg => arg.type.underlyingType))).foldl
        (addDependency typeName) st := by
  induction fields with
  | nil => intro st; rfl
  | cons field fields ih =>
    intro st
    rw [List.foldl_cons, ih, List.flatMap_cons, List.foldl_append, List.foldl_cons,
      List.foldl_map]
    rfl

theorem collectDependencies_eq (t : SchemaType) (dependents : List (String × List String)) :
    collectDependencies t dependents =
      (dependencyRefs t).foldl (addDependency t.name) (dependents, []) := by
  unfold collectDependencies dependencyRefs
  rw [List.foldl_append, List.foldl_append, List.foldl_map, foldl_addFieldDependencies]

theorem collectDependencies_spec (t : SchemaType) (dependents : List (String × List String)) :
    (∀ d, d ∈ (collectDependencies t dependents).2 ↔ d ∈ dependencyNames t) ∧
    (∀ x y, y ∈ dependentsOf (collectDependencies t dependents).1 x ↔
      y ∈ dependentsOf dependents x ∨ (y = t.name ∧ x ∈ dependencyNames t)) := by
  rw [collectDependencies_eq]
  have h := foldl_addDependency_spec t.name (dependencyRefs t) (dependents, [])
  constructor
  · intro d
    rw [h.1]
    simp [dependencyNames]
  · intro x y
    rw [h.2]
    rfl

theorem graphInv_nil : GraphInv [] ⟨[], []⟩ :=
  ⟨rfl, rfl, fun e he => by simp at he, fun x y => by simp [dependentsOf, mapFind]⟩

theorem buildStep_inv (done : List SchemaType) (g : DependencyGraph) (t : SchemaType)
    (hg : GraphInv done g) (hc : isCustomType t.kind = true)
    (hnew : t.name ∉ done.map (fun u => u.name)) :
    GraphInv (done ++ [t]) (buildStep g t) := by
  have hspec := collectDependencies_spec t g.typesToDependents
  have hkey : t.name ∉ g.typesToDependencies.map Prod.fst := by rw [hg.keys]; exact hnew
  have hstep : buildStep g t =
      ⟨(collectDependencies t g.typesToDependents).1,
       g.typesToDependencies ++ [(t.name, ⟨t, (collectDependencies t g.typesToDependents).2⟩)]⟩ := by
    unfold buildStep
    rw [if_pos hc]
    simp only [mapModify_of_not_mem _ _ _ _ hkey]
  rw [hstep]
  refine ⟨?_, ?_, ?_, ?_⟩
  · simp [hg.keys]
  · simp [hg.types]
  · intro e he d
    rcases List.mem_append.1 he with h | h
    · exact hg.deps e h d
    · rw [List.mem_singleton] at h
      rw [h]
      exact hspec.1 d
  · intro x y
    show y ∈ dependentsOf (collectDependencies t g.typesToDependents).1 x ↔ _
    rw [hspec.2, hg.dependents x y]
    constructor
    · rintro (⟨u, hu, h1, h2⟩ | ⟨h1, h2⟩)
      · exact ⟨u, List.mem_append_left _ hu, h1, h2⟩
      · exact ⟨t, by simp, h1.symm, h2⟩
    · rintro ⟨u, hu, h1, h2⟩
      rcases List.mem_append.1 hu with h | h
      · exact Or.inl ⟨u, h, h1, h2⟩
      · rw [List.mem_singleton] at h
        rw [h] at h1 h2
        exact Or.inr ⟨h1.symm, h2⟩

theorem foldl_buildStep_inv (rest : List SchemaType) :
    ∀ (done : List SchemaType) (g : DependencyGraph), GraphInv done g →
      ((done ++ customTypes rest).map (fun u => u.name)).Nodup →
      GraphInv (done ++ customTypes rest) (rest.foldl buildStep g) := by
  induction rest with
  | nil =>
    intro done g hg _
    simpa [customTypes] using hg
  | cons t rest ih =>
    intro done g hg hn
    rw [List.foldl_cons]
    by_cases hc : isCustomType t.kind = true
    · have hcust : customTypes (t :: rest) = t :: customTypes rest := by
        simp [customTypes, hc]
      rw [hcust] at hn ⊢
      have hsplit : done ++ t :: customTypes rest = (done ++ [t]) ++ customTypes rest := by simp
      rw [hsplit] at hn ⊢
      apply ih _ _ _ hn
      apply buildStep_inv done g t hg hc
      rw [List.map_append, List.map_append, List.nodup_append] at hn
      have h1 := hn.1
      rw [List.nodup_append] at h1
      intro hmem
      exact h1.2.2 hmem (by simp)
    · have hcust : customTypes (t :: rest) = customTypes rest := by
        simp [customTypes, hc]
      have hstep : buildStep g t = g := by
        unfold buildStep
        rw [if_neg hc]
      rw [hcust] at hn ⊢
      rw [hstep]
      exact ih done g hg hn

theorem buildGraph_inv (types : List SchemaType)
    (hn : ((customTypes types).map (fun u => u.name)).Nodup) :
    GraphInv (customTypes types) (buildGraph types) := by
  have h := foldl_buildStep_inv types [] ⟨[], []⟩ graphInv_nil (by simpa using hn)
  simpa [buildGraph] using h

theorem customTypes_names_nodup (types : List SchemaType)
    (hn : (types.map (fun u => u.name)).Nodup) :
    ((customTypes types).map (fun u => u.name)).Nodup :=
  hn.sublist ((List.filter_sublist types).map _)


/-! ## Theorems: one pass of the sorter -/

theorem eraseIn_fst (x : String) (L : List String) (e : String × TypeWithDependencies) :
    (eraseIn x L e).1 = e.1 := by
  unfold eraseIn
  split <;> rfl

theorem eraseIn_type (x : String) (L : List String) (e : String × TypeWithDependencies) :
    (eraseIn x L e).2.type = e.2.type := by
  unfold eraseIn
  split <;> rfl

theorem map_eraseIn_keys (x : String) (L : List String)
    (m : List (String × TypeWithDependencies)) :
    (m.map (eraseIn x L)).map Prod.fst = m.map Prod.fst := by
  rw [List.map_map]
  apply List.map_congr_left
  intro e _
  exact eraseIn_fst x L e

theorem setErase_setErase (s : List String) (x : String) :
    setErase (setErase s x) x = setErase s x := by
  simp [setErase, List.filter_filter]

theorem foldl_eraseDependency (x : String) (L : List String) :
    ∀ m : List (String × TypeWithDependencies), (m.map Prod.fst).Nodup →
      (∀ dn ∈ L, dn ∈ m.map Prod.fst) →
      L.foldl (fun m dependentName => eraseDependency m x dependentName) m
        = m.map (eraseIn x L) := by
  induction L with
  | nil =>
    intro m _ _
    have : eraseIn x [] = id := by
      funext e
      simp [eraseIn]
    rw [List.foldl_nil, this, List.map_id]
  | cons a L ih =>
    intro m hn hmem
    rw [List.foldl_cons]
    have hstep : eraseDependency m x a = m.map (eraseIn x [a]) := by
      unfold eraseDependency
      rw [mapModify_of_mem _ _ _ _ hn (hmem a (List.mem_cons_self _ _))]
      apply List.map_congr_left
      intro e _
      simp [eraseIn]
    rw [hstep, ih]
    · rw [List.map_map]
      apply List.map_congr_left
      intro e _
      by_cases ha : e.1 = a
      · by_cases hl : e.1 ∈ L
        · simp [eraseIn, ha, hl, setErase_setErase]
        · simp [eraseIn, ha, hl, setErase_setErase]
      · by_cases hl : e.1 ∈ L
        · simp [eraseIn, ha, hl]
        · simp [eraseIn, ha, hl]
    · rw [map_eraseIn_keys]; exact hn
    · intro dn hdn
      rw [map_eraseIn_keys]
      exact hmem dn (List.mem_cons_of_mem _ hdn)

theorem depOrdered_nil : DepOrdered [] := by
  intro pre t post h
  simp at h

theorem depOrdered_snoc (l : List SchemaType) (t : SchemaType) (hl : DepOrdered l)
    (ht : ∀ d ∈ dependencyNames t, d ∈ l.map (fun u => u.name)) : DepOrdered (l ++ [t]) := by
  intro pre u post h d hd
  rcases List.eq_nil_or_concat post with hp | ⟨post1, b, hp⟩
  · rw [hp] at h
    have h2 := List.append_inj' h rfl
    have hu : t = u := by simpa using h2.2
    rw [← h2.1]
    exact ht d (by rw [hu]; exact hd)
  · rw [hp] at h
    have h1 : l ++ [t] = (pre ++ u :: post1) ++ [b] := by
      rw [h]; simp
    have h2 := List.append_inj' h1 rfl
    exact hl pre u post1 h2.1 d hd

theorem passInv_tail (custom : List SchemaType) (st : PassState) (key : String)
    (todo : List String) (h : PassInv custom st (key :: todo)) : PassInv custom st todo :=
  { keys_nodup := h.keys_nodup
    entry := h.entry
    deps := h.deps
    sorted_mem := h.sorted_mem
    sorted_nodup := h.sorted_nodup
    cover := h.cover
    excl := h.excl
    ordered := h.ordered
    todo_nodup := (List.nodup_cons.1 h.todo_nodup).2
    todo_keys := fun k hk => h.todo_keys k (List.mem_cons_of_mem _ hk) }

theorem visit_of_not_ready (ord : IterationOrder) (D : List (String × List String))
    (st : PassState) (key : String)
    (h : ∀ second, mapFind st.typesToDependencies key = some second →
      second.dependencies ≠ []) :
    visit ord D st key = st := by
  unfold visit
  cases hf : mapFind st.typesToDependencies key with
  | none => rfl
  | some second =>
    have := h second hf
    simp [List.isEmpty_iff, this]

theorem visit_of_ready (ord : IterationOrder) (D : List (String × List String))
    (st : PassState) (key : String) (second : TypeWithDependencies)
    (hf : mapFind st.typesToDependencies key = some second) (hr : second.dependencies = []) :
    visit ord D st key =
      { typesToDependencies :=
          (ord.setOrder key (dependentsOf D key)).foldl
            (fun m dependentName => eraseDependency m key dependentName) st.typesToDependencies
        sortedTypes := st.sortedTypes ++ [second.type]
        addedTypeNames := st.addedTypeNames ++ [key] } := by
  unfold visit
  simp [hf, hr]

/-- While a ready entry is handled, every dependent whose entry is accessed is
still a key of `typesToDependencies`. -/
theorem dependents_present (custom : List SchemaType) (D : List (String × List String))
    (hD : DependentsSpec custom D) (st : PassState) (key : String) (todo : List String)
    (h : PassInv custom st (key :: todo)) (dn : String) (hdn : dn ∈ dependentsOf D key) :
    dn ∈ st.typesToDependencies.map Prod.fst := by
  obtain ⟨t, ht, hname, hdep⟩ := (hD key dn).1 hdn
  have hk := h.todo_keys key (List.mem_cons_self _ _)
  rcases h.cover t ht with hs | hs
  · exfalso
    obtain ⟨pre, post, hsplit⟩ := List.append_of_mem hs
    have hpre := h.ordered pre t post hsplit key hdep
    have hsorted : key ∈ st.sortedTypes.map (fun u => u.name) := by
      rw [hsplit, List.map_append]
      exact List.mem_append_left _ hpre
    exact hk.2 ((h.excl key hk.1).1 hsorted)
  · rw [← hname]; exact hs

theorem visit_inv (ord : IterationOrder) (custom : List SchemaType)
    (D : List (String × List String)) (hD : DependentsSpec custom D)
    (st : PassState) (key : String) (todo : List String)
    (h : PassInv custom st (key :: todo)) : PassInv custom (visit ord D st key) todo := by
  by_cases hready : ∀ second, mapFind st.typesToDependencies key = some second →
      second.dependencies ≠ []
  · rw [visit_of_not_ready ord D st key hready]
    exact passInv_tail custom st key todo h
  · simp only [not_forall, not_not] at hready
    obtain ⟨second, hf, hr⟩ := hready
    have hk := h.todo_keys key (List.mem_cons_self _ _)
    have hmemE : (key, second) ∈ st.typesToDependencies := mem_of_mapFind _ _ _ hf
    have hent := h.entry _ hmemE
    simp only at hent
    have hL : ∀ dn ∈ ord.setOrder key (dependentsOf D key),
        dn ∈ st.typesToDependencies.map Prod.fst := by
      intro dn hdn
      exact dependents_present custom D hD st key todo h dn
        ((ord.setOrder_perm key _).mem_iff.1 hdn)
    rw [visit_of_ready ord D st key second hf hr, foldl_eraseDependency key _ _ h.keys_nodup hL]
    have hnotsorted : key ∉ st.sortedTypes.map (fun u => u.name) :=
      fun hs => hk.2 ((h.excl key hk.1).1 hs)
    have hdepsSorted : ∀ d ∈ dependencyNames second.type,
        d ∈ st.sortedTypes.map (fun u => u.name) := by
      intro d hd
      by_contra hns
      have := (h.deps _ hmemE d).2 ⟨hd, hns⟩
      simp only at this
      rw [hr] at this
      simp at this
    refine
      { keys_nodup := ?_, entry := ?_, deps := ?_, sorted_mem := ?_, sorted_nodup := ?_,
        cover := ?_, excl := ?_, ordered := ?_, todo_nodup := ?_, todo_keys := ?_ }
    · show ((st.typesToDependencies.map _).map Prod.fst).Nodup
      rw [map_eraseIn_keys]; exact h.keys_nodup
    · intro e' he'
      obtain ⟨e, he, hee⟩ := List.mem_map.1 he'
      rw [← hee, eraseIn_fst, eraseIn_type]
      exact h.entry e he
    · intro e' he' d
      obtain ⟨e, he, hee⟩ := List.mem_map.1 he'
      show d ∈ e'.2.dependencies ↔
        d ∈ dependencyNames e'.2.type ∧ d ∉ (st.sortedTypes ++ [second.type]).map (fun u => u.name)
      have hnames : ∀ d, d ∈ (st.sortedTypes ++ [second.type]).map (fun u => u.name) ↔
          (d ∈ st.sortedTypes.map (fun u => u.name) ∨ d = key) := by
        intro d
        rw [List.map_append, List.mem_append]
        simp [hent.1]
      rw [← hee, eraseIn_type, hnames, not_or]
      by_cases hin : e.1 ∈ ord.setOrder key (dependentsOf D key)
      · have : (eraseIn key (ord.setOrder key (dependentsOf D key)) e).2.dependencies
            = setErase e.2.dependencies key := by simp [eraseIn, hin]
        rw [this, mem_setErase, h.deps e he d, and_assoc]
      · have : (eraseIn key (ord.setOrder key (dependentsOf D key)) e) = e := by
          simp [eraseIn, hin]
        rw [this, h.deps e he d]
        constructor
        · rintro ⟨h1, h2⟩
          refine ⟨h1, h2, ?_⟩
          intro hdk
          apply hin
          rw [(ord.setOrder_perm key _).mem_iff, hD key e.1]
          exact ⟨e.2.type, (h.entry e he).2, (h.entry e he).1, by rw [← hdk]; exact h1⟩
        · rintro ⟨h1, h2, _⟩
          exact ⟨h1, h2⟩
    · intro t ht
      rcases List.mem_append.1 ht with h1 | h1
      · exact h.sorted_mem t h1
      · rw [List.mem_singleton] at h1
        rw [h1]; exact hent.2
    · show ((st.sortedTypes ++ [second.type]).map (fun u => u.name)).Nodup
      rw [List.map_append, List.nodup_append]
      refine ⟨h.sorted_nodup, by simp, ?_⟩
      intro a ha hb
      simp only [List.map_cons, List.map_nil, List.mem_singleton] at hb
      rw [hb, hent.1] at ha
      exact hnotsorted ha
    · intro t ht
      rcases h.cover t ht with h1 | h1
      · exact Or.inl (List.mem_append_left _ h1)
      · right
        show t.name ∈ (st.typesToDependencies.map _).map Prod.fst
        rw [map_eraseIn_keys]; exact h1
    · intro k hkm
      have hkm' : k ∈ st.typesToDependencies.map Prod.fst := by
        have := hkm
        simp only at this
        rw [map_eraseIn_keys] at this
        exact this
      show k ∈ (st.sortedTypes ++ [second.type]).map (fun u => u.name) ↔
        k ∈ st.addedTypeNames ++ [key]
      rw [List.map_append, List.mem_append, List.mem_append, h.excl k hkm']
      simp [hent.1]
    · exact depOrdered_snoc _ _ h.ordered hdepsSorted
    · exact (List.nodup_cons.1 h.todo_nodup).2
    · intro k hkt
      have hk2 := h.todo_keys k (List.mem_cons_of_mem _ hkt)
      refine ⟨?_, ?_⟩
      · show k ∈ (st.typesToDependencies.map _).map Prod.fst
        rw [map_eraseIn_keys]; exact hk2.1
      · show k ∉ st.addedTypeNames ++ [key]
        rw [List.mem_append, not_or]
        refine ⟨hk2.2, ?_⟩
        intro hkk
        rw [List.mem_singleton] at hkk
        rw [hkk] at hkt
        exact (List.nodup_cons.1 h.todo_nodup).1 hkt

theorem foldl_visit_inv (ord : IterationOrder) (custom : List SchemaType)
    (D : List (String × List String)) (hD : DependentsSpec custom D) (todo : List String) :
    ∀ st : PassState, PassInv custom st todo →
      PassInv custom (todo.foldl (visit ord D) st) [] := by
  induction todo with
  | nil => intro st h; exact h
  | cons key todo ih =>
    intro st h
    rw [List.foldl_cons]
    exact ih _ (visit_inv ord custom D hD st key todo h)


/-! ## Theorems: the loop of the sorter -/

theorem visit_cases (ord : IterationOrder) (custom : List SchemaType)
    (D : List (String × List String)) (hD : DependentsSpec custom D)
    (st : PassState) (key : String) (todo : List String)
    (h : PassInv custom st (key :: todo)) :
    (visit ord D st key = st ∧
      ∀ second, mapFind st.typesToDependencies key = some second → second.dependencies ≠ []) ∨
    ∃ second, mapFind st.typesToDependencies key = some second ∧ second.dependencies = [] ∧
      visit ord D st key =
        { typesToDependencies :=
            st.typesToDependencies.map (eraseIn key (ord.setOrder key (dependentsOf D key)))
          sortedTypes := st.sortedTypes ++ [second.type]
          addedTypeNames := st.addedTypeNames ++ [key] } := by
  by_cases hready : ∀ second, mapFind st.typesToDependencies key = some second →
      second.dependencies ≠ []
  · exact Or.inl ⟨visit_of_not_ready ord D st key hready, hready⟩
  · simp only [not_forall, not_not] at hready
    obtain ⟨second, hf, hr⟩ := hready
    have hL : ∀ dn ∈ ord.setOrder key (dependentsOf D key),
        dn ∈ st.typesToDependencies.map Prod.fst := by
      intro dn hdn
      exact dependents_present custom D hD st key todo h dn
        ((ord.setOrder_perm key _).mem_iff.1 hdn)
    refine Or.inr ⟨second, hf, hr, ?_⟩
    rw [visit_of_ready ord D st key second hf hr, foldl_eraseDependency key _ _ h.keys_nodup hL]

/-- The pair met by the loop over `typesToDependencies` is found in the map. -/
theorem visit_key_found (custom : List SchemaType) (st : PassState) (key : String)
    (todo : List String) (h : PassInv custom st (key :: todo)) :
    ∃ second, mapFind st.typesToDependencies key = some second :=
  mapFind_isSome_of_mem _ key (h.todo_keys key (List.mem_cons_self _ _)).1

theorem visit_keys (ord : IterationOrder) (custom : List SchemaType)
    (D : List (String × List String)) (hD : DependentsSpec custom D)
    (st : PassState) (key : String) (todo : List String)
    (h : PassInv custom st (key :: todo)) :
    (visit ord D st key).typesToDependencies.map Prod.fst
      = st.typesToDependencies.map Prod.fst := by
  rcases visit_cases ord custom D hD st key todo h with ⟨h1, _⟩ | ⟨second, _, _, h1⟩
  · rw [h1]
  · rw [h1]
    exact map_eraseIn_keys _ _ _

theorem foldl_visit_keys (ord : IterationOrder) (custom : List SchemaType)
    (D : List (String × List String)) (hD : DependentsSpec custom D) (todo : List String) :
    ∀ st : PassState, PassInv custom st todo →
      (todo.foldl (visit ord D) st).typesToDependencies.map Prod.fst
        = st.typesToDependencies.map Prod.fst := by
  induction todo with
  | nil => intro st _; rfl
  | cons key todo ih =>
    intro st h
    rw [List.foldl_cons, ih _ (visit_inv ord custom D hD st key todo h),
      visit_keys ord custom D hD st key todo h]

theorem passInv_start (ord : IterationOrder) (custom : List SchemaType) (k : Nat)
    (m : List (String × TypeWithDependencies)) (sorted : List SchemaType)
    (h : PassInv custom ⟨m, sorted, []⟩ []) :
    PassInv custom ⟨m, sorted, []⟩ (ord.mapOrder k (m.map Prod.fst)) :=
  { keys_nodup := h.keys_nodup
    entry := h.entry
    deps := h.deps
    sorted_mem := h.sorted_mem
    sorted_nodup := h.sorted_nodup
    cover := h.cover
    excl := h.excl
    ordered := h.ordered
    todo_nodup := (ord.mapOrder_perm k _).nodup_iff.2 h.keys_nodup
    todo_keys := fun key hk => ⟨(ord.mapOrder_perm k _).mem_iff.1 hk, by simp⟩ }

theorem passInv_finish (custom : List SchemaType)
    (hcn : (custom.map (fun u => u.name)).Nodup) (st : PassState)
    (h : PassInv custom st []) :
    PassInv custom ⟨st.addedTypeNames.foldl mapErase st.typesToDependencies, st.sortedTypes, []⟩
      [] := by
  rw [foldl_mapErase]
  have hsub : ∀ e, e ∈ st.typesToDependencies.filter (fun e => decide (e.1 ∉ st.addedTypeNames))
      → e ∈ st.typesToDependencies ∧ e.1 ∉ st.addedTypeNames := by
    intro e he
    have := List.mem_filter.1 he
    exact ⟨this.1, by simpa using this.2⟩
  refine
    { keys_nodup := ?_, entry := ?_, deps := ?_, sorted_mem := h.sorted_mem,
      sorted_nodup := h.sorted_nodup, cover := ?_, excl := ?_, ordered := h.ordered,
      todo_nodup := List.nodup_nil, todo_keys := ?_ }
  · exact h.keys_nodup.sublist ((List.filter_sublist _).map _)
  · intro e he
    exact h.entry e (hsub e he).1
  · intro e he d
    exact h.deps e (hsub e he).1 d
  · intro t ht
    rcases h.cover t ht with h1 | h1
    · exact Or.inl h1
    · by_cases hadd : t.name ∈ st.addedTypeNames
      · left
        have hs := (h.excl t.name h1).2 hadd
        obtain ⟨u, hu, hname⟩ := List.mem_map.1 hs
        have hut : u = t :=
          List.inj_on_of_nodup_map hcn (h.sorted_mem u hu) ht hname
        rw [← hut]; exact hu
      · right
        obtain ⟨e, he, hname⟩ := List.mem_map.1 h1
        apply List.mem_map.2
        refine ⟨e, List.mem_filter.2 ⟨he, ?_⟩, hname⟩
        rw [hname]
        simpa using hadd
  · intro k hk
    obtain ⟨e, he, hname⟩ := List.mem_map.1 hk
    have h2 := hsub e he
    have hkm : k ∈ st.typesToDependencies.map Prod.fst :=
      List.mem_map.2 ⟨e, h2.1, hname⟩
    have := h.excl k hkm
    constructor
    · intro hs
      rw [← hname] at this
      exact absurd (this.1 (by rw [hname]; exact hs)) h2.2
    · intro hs
      simp at hs
  · intro k hk
    simp at hk

theorem pass_inv (ord : IterationOrder) (custom : List SchemaType)
    (hcn : (custom.map (fun u => u.name)).Nodup)
    (D : List (String × List String)) (hD : DependentsSpec custom D) (k : Nat)
    (m : List (String × TypeWithDependencies)) (sorted : List SchemaType)
    (h : PassInv custom ⟨m, sorted, []⟩ []) :
    PassInv custom ⟨(pass ord D k m sorted).1, (pass ord D k m sorted).2, []⟩ [] ∧
    (pass ord D k m sorted).1.length ≤ m.length := by
  have hstart := passInv_start ord custom k m sorted h
  have hfold := foldl_visit_inv ord custom D hD _ _ hstart
  have hkeys := foldl_visit_keys ord custom D hD _ _ hstart
  refine ⟨passInv_finish custom hcn _ hfold, ?_⟩
  show (List.foldl mapErase _ _).length ≤ m.length
  rw [foldl_mapErase]
  have hlen : ((ord.mapOrder k (m.map Prod.fst)).foldl (visit ord D)
      ⟨m, sorted, []⟩).typesToDependencies.length = m.length := by
    have := congrArg List.length hkeys
    simpa using this
  rw [← hlen]
  exact List.length_filter_le _ _

theorem sortLoop_spec (ord : IterationOrder) (custom : List SchemaType)
    (hcn : (custom.map (fun u => u.name)).Nodup)
    (D : List (String × List String)) (hD : DependentsSpec custom D) :
    ∀ (fuel k : Nat) (m : List (String × TypeWithDependencies)) (sorted : List SchemaType),
      PassInv custom ⟨m, sorted, []⟩ [] → m.length < fuel →
      sortLoop ord D fuel k m sorted = some (Except.error "Circular dependencies in schema") ∨
      ∃ l, sortLoop ord D fuel k m sorted = some (Except.ok l) ∧
        PassInv custom ⟨[], l, []⟩ [] := by
  intro fuel
  induction fuel with
  | zero => intro k m sorted _ hlt; exact absurd hlt (Nat.not_lt_zero _)
  | succ fuel ih =>
    intro k m sorted h hlt
    unfold sortLoop
    cases m with
    | nil =>
      right
      exact ⟨sorted, by simp, h⟩
    | cons e m =>
      have hp := pass_inv ord custom hcn D hD k (e :: m) sorted h
      simp only [List.isEmpty_cons, Bool.false_eq_true, if_false]
      by_cases hlen : (pass ord D k (e :: m) sorted).1.length = (e :: m).length
      · left
        rw [if_pos hlen]
      · rw [if_neg hlen]
        apply ih (k + 1) _ _ hp.1
        have := hp.2
        omega

theorem passInv_init (types : List SchemaType)
    (hcn : ((customTypes types).map (fun u => u.name)).Nodup) :
    PassInv (customTypes types) ⟨(buildGraph types).typesToDependencies, [], []⟩ [] := by
  have hg := buildGraph_inv types hcn
  have hname : ∀ e ∈ (buildGraph types).typesToDependencies, e.1 = e.2.type.name := by
    have h1 := hg.keys
    rw [← hg.types, List.map_map] at h1
    exact List.map_inj_left.1 h1
  have htype : ∀ e ∈ (buildGraph types).typesToDependencies, e.2.type ∈ customTypes types := by
    intro e he
    rw [← hg.types]
    exact List.mem_map.2 ⟨e, he, rfl⟩
  refine
    { keys_nodup := ?_, entry := ?_, deps := ?_, sorted_mem := ?_, sorted_nodup := ?_,
      cover := ?_, excl := ?_, ordered := depOrdered_nil, todo_nodup := List.nodup_nil,
      todo_keys := ?_ }
  · show ((buildGraph types).typesToDependencies.map Prod.fst).Nodup
    rw [hg.keys]; exact hcn
  · intro e he
    exact ⟨(hname e he).symm, htype e he⟩
  · intro e he d
    have := hg.deps e he d
    simp [this]
  · intro t ht; simp at ht
  · simp
  · intro t ht
    right
    show t.name ∈ (buildGraph types).typesToDependencies.map Prod.fst
    rw [hg.keys]
    exact List.mem_map.2 ⟨t, ht, rfl⟩
  · intro k _; simp
  · intro k hk; simp at hk

theorem passInv_final (custom : List SchemaType)
    (hcn : (custom.map (fun u => u.name)).Nodup) (l : List SchemaType)
    (h : PassInv custom ⟨[], l, []⟩ []) : l.Perm custom ∧ DepOrdered l := by
  refine ⟨?_, h.ordered⟩
  rw [List.perm_ext_iff_of_nodup (List.Nodup.of_map _ h.sorted_nodup) (List.Nodup.of_map _ hcn)]
  intro t
  constructor
  · exact h.sorted_mem t
  · intro ht
    rcases h.cover t ht with h1 | h1
    · exact h1
    · simp at h1

/-- The outcome of the sorter on types with pairwise distinct names: either the
circular-dependency error, or a dependency-ordered permutation of the custom
types. -/
theorem sort_spec (ord : IterationOrder) (types : List SchemaType)
    (hn : (types.map (fun u => u.name)).Nodup) :
    sortCustomTypesByDependencyOrder ord types
      = some (Except.error "Circular dependencies in schema") ∨
    ∃ l, sortCustomTypesByDependencyOrder ord types = some (Except.ok l) ∧
      l.Perm (customTypes types) ∧ DepOrdered l := by
  have hcn := customTypes_names_nodup types hn
  have hg := buildGraph_inv types hcn
  rcases sortLoop_spec ord (customTypes types) hcn (buildGraph types).typesToDependents
      hg.dependents ((buildGraph types).typesToDependencies.length + 1) 0
      (buildGraph types).typesToDependencies [] (passInv_init types hcn)
      (Nat.lt_succ_self _) with h | ⟨l, h1, h2⟩
  · exact Or.inl h
  · exact Or.inr ⟨l, h1, passInv_final _ hcn l h2⟩


/-! ## Theorems: dependency ordering -/

theorem mem_dependencyRefs (t : SchemaType) (r : TypeRef) :
    r ∈ dependencyRefs t ↔
      ((∃ field ∈ t.fields, r = field.type.underlyingType ∨
          ∃ arg ∈ field.args, r = arg.type.underlyingType) ∨
        (∃ field ∈ t.inputFields, r = field.type.underlyingType) ∨
        r ∈ t.interfaces) := by
  unfold dependencyRefs
  simp only [List.mem_append, List.mem_flatMap, List.mem_cons, List.mem_map, or_assoc]
  constructor
  · rintro (⟨f, hf, h | ⟨a, ha, h⟩⟩ | ⟨f, hf, h⟩ | h)
    · exact Or.inl ⟨f, hf, Or.inl h⟩
    · exact Or.inl ⟨f, hf, Or.inr ⟨a, ha, h.symm⟩⟩
    · exact Or.inr (Or.inl ⟨f, hf, h.symm⟩)
    · exact Or.inr (Or.inr h)
  · rintro (⟨f, hf, h | ⟨a, ha, h⟩⟩ | ⟨f, hf, h⟩ | h)
    · exact Or.inl ⟨f, hf, Or.inl h⟩
    · exact Or.inl ⟨f, hf, Or.inr ⟨a, ha, h.symm⟩⟩
    · exact Or.inr (Or.inl ⟨f, hf, h.symm⟩)
    · exact Or.inr (Or.inr h)

theorem depOrdered_index (l : List SchemaType) (h : DepOrdered l) (i : Nat) (A : SchemaType)
    (hi : l[i]? = some A) (d : String) (hd : d ∈ dependencyNames A) :
    ∃ j B, j < i ∧ l[j]? = some B ∧ B.name = d := by
  obtain ⟨hlt, hA⟩ := List.getElem?_eq_some.1 hi
  have hsplit : l = l.take i ++ A :: l.drop (i + 1) := by
    conv_lhs => rw [← List.take_append_drop i l, List.drop_eq_getElem_cons hlt, hA]
  have hpre := h _ _ _ hsplit d hd
  obtain ⟨B, hB, hname⟩ := List.mem_map.1 hpre
  obtain ⟨j, hj⟩ := List.mem_iff_getElem?.1 hB
  rw [List.getElem?_take] at hj
  by_cases hji : j < i
  · rw [if_pos hji] at hj
    exact ⟨j, B, hji, hj, hname⟩
  · rw [if_neg hji] at hj
    cases hj

/-- C1: when the sorter returns a sequence for types with pairwise distinct
names, under any iteration order, every named custom-kind reference of a type
of the output (the stripped type of a field, of an argument of a field, of an
input field, or a declared interface) names a type at a strictly earlier
position of the output. -/
theorem sorted_dependencies_precede (ord : IterationOrder) (types : List SchemaType)
    (hn : (types.map (fun u => u.name)).Nodup) (l : List SchemaType)
    (h : sortCustomTypesByDependencyOrder ord types = some (Except.ok l))
    (i : Nat) (A : SchemaType) (hi : l[i]? = some A) (r : TypeRef)
    (hr : (∃ field ∈ A.fields, r = field.type.underlyingType ∨
            ∃ arg ∈ field.args, r = arg.type.underlyingType) ∨
          (∃ field ∈ A.inputFields, r = field.type.underlyingType) ∨
          r ∈ A.interfaces)
    (n : String) (hname : r.name = some n) (hkind : isCustomType r.kind = true) :
    ∃ j B, j < i ∧ l[j]? = some B ∧ B.name = n := by
  rcases sort_spec ord types hn with herr | ⟨l2, hok, _, hord⟩
  · rw [herr] at h; cases h
  · rw [hok] at h
    have hl : l2 = l := by injection h with h; injection h
    rw [hl] at hord
    apply depOrdered_index l hord i A hi n
    unfold dependencyNames
    rw [mem_recordedNames]
    exact ⟨r, (mem_dependencyRefs A r).2 hr, hkind, hname⟩

theorem sorted_dependencies_precede_witness :
    (∃ j B, j < 2 ∧ [someInputObject, someEnum, queryObject][j]? = some B
      ∧ B.name = "SomeInputObject") ∧
    (∃ j B, j < 2 ∧ [someInputObject, someEnum, queryObject][j]? = some B
      ∧ B.name = "SomeEnum") :=
  ⟨sorted_dependencies_precede reverseOrder [queryObject, intScalar, someEnum, someInputObject]
      (by decide) [someInputObject, someEnum, queryObject] (by decide) 2 queryObject rfl
      (namedRef Kind.InputObject "SomeInputObject")
      (Or.inl ⟨fooField, List.mem_singleton.2 rfl,
        Or.inr ⟨barArgument, List.mem_singleton.2 rfl, rfl⟩⟩)
      "SomeInputObject" rfl rfl,
   sorted_dependencies_precede reverseOrder [queryObject, intScalar, someEnum, someInputObject]
      (by decide) [someInputObject, someEnum, queryObject] (by decide) 2 queryObject rfl
      (namedRef Kind.Enum "SomeEnum")
      (Or.inl ⟨fooField, List.mem_singleton.2 rfl, Or.inl rfl⟩)
      "SomeEnum" rfl rfl⟩

/-- C2: when the sorter returns a sequence for types with pairwise distinct
names, that sequence is a permutation of the custom-kind types of the input:
each occurs exactly once, and no type of kind Scalar, List or NonNull occurs. -/
theorem sorted_is_permutation (ord : IterationOrder) (types : List SchemaType)
    (hn : (types.map (fun u => u.name)).Nodup) (l : List SchemaType)
    (h : sortCustomTypesByDependencyOrder ord types = some (Except.ok l)) :
    l.Perm (types.filter (fun t => isCustomType t.kind)) ∧
    (∀ t ∈ types, isCustomType t.kind = true → l.count t = 1) ∧
    (∀ t ∈ l, t ∈ types ∧ t.kind ≠ Kind.Scalar ∧ t.kind ≠ Kind.List ∧ t.kind ≠ Kind.NonNull) := by
  rcases sort_spec ord types hn with herr | ⟨l2, hok, hperm, _⟩
  · rw [herr] at h; cases h
  · rw [hok] at h
    have hl : l2 = l := by injection h with h; injection h
    rw [hl] at hperm
    have hcn := customTypes_names_nodup types hn
    refine ⟨hperm, ?_, ?_⟩
    · intro t ht hc
      rw [hperm.count_eq]
      apply List.count_eq_one_of_mem (List.Nodup.of_map _ hcn)
      exact List.mem_filter.2 ⟨ht, hc⟩
    · intro t ht
      have hmem := List.mem_filter.1 (hperm.mem_iff.1 ht)
      refine ⟨hmem.1, ?_⟩
      have hc := hmem.2
      refine ⟨?_, ?_, ?_⟩ <;> intro hk <;> rw [hk] at hc <;> cases hc

theorem sorted_is_permutation_witness :
    [someInputObject, someEnum, queryObject].Perm
      ([queryObject, intScalar, someEnum, someInputObject].filter
        (fun t => isCustomType t.kind)) :=
  (sorted_is_permutation reverseOrder [queryObject, intScalar, someEnum, someInputObject]
    (by decide) [someInputObject, someEnum, queryObject] (by decide)).1


/-! ## Theorems: success and failure of the sorter -/

theorem exists_no_successor (R : String → String → Prop)
    (hac : ∀ a, ¬ Relation.TransGen R a a) (S : List String) (hS : S ≠ []) :
    ∃ a ∈ S, ∀ b ∈ S, ¬ R a b := by
  let r : {a // a ∈ S} → {a // a ∈ S} → Prop := fun x y => Relation.TransGen R y.1 x.1
  haveI : IsTrans {a // a ∈ S} r := ⟨fun x y z hxy hyz => Relation.TransGen.trans hyz hxy⟩
  haveI : IsIrrefl {a // a ∈ S} r := ⟨fun x hx => hac x.1 hx⟩
  have hwf : WellFounded r := Finite.wellFounded_of_trans_of_irrefl r
  obtain ⟨a0, ha0⟩ := List.exists_mem_of_ne_nil S hS
  obtain ⟨a, _, hmin⟩ := hwf.has_min Set.univ ⟨⟨a0, ha0⟩, Set.mem_univ _⟩
  refine ⟨a.1, a.2, ?_⟩
  intro b hb hR
  exact hmin ⟨b, hb⟩ (Set.mem_univ _) (Relation.TransGen.single hR)

/-- In a closed acyclic graph a non-empty working set has a ready entry. -/
theorem exists_ready (custom : List SchemaType) (hclosed : DependenciesClosed custom)
    (hac : Acyclic custom) (m : List (String × TypeWithDependencies))
    (sorted : List SchemaType) (h : PassInv custom ⟨m, sorted, []⟩ []) (hm : m ≠ []) :
    ∃ e ∈ m, e.2.dependencies = [] := by
  have hS : m.map Prod.fst ≠ [] := by
    intro hnil
    exact hm (List.map_eq_nil_iff.1 hnil)
  obtain ⟨a, ha, hmin⟩ := exists_no_successor (DependsOn custom) hac _ hS
  obtain ⟨e, he, hea⟩ := List.mem_map.1 ha
  refine ⟨e, he, ?_⟩
  rw [List.eq_nil_iff_forall_not_mem]
  intro d hd
  have hdeps := (h.deps e he d).1 hd
  have hent := h.entry e he
  obtain ⟨u, hu, hud⟩ := hclosed _ hent.2 d hdeps.1
  rcases h.cover u hu with h1 | h1
  · apply hdeps.2
    rw [← hud]
    exact List.mem_map.2 ⟨u, h1, rfl⟩
  · apply hmin d (by rw [← hud]; exact h1)
    exact ⟨e.2.type, hent.2, by rw [hent.1, hea], hdeps.1⟩

theorem visit_added_mono (ord : IterationOrder) (D : List (String × List String))
    (st : PassState) (key x : String) (hx : x ∈ st.addedTypeNames) :
    x ∈ (visit ord D st key).addedTypeNames := by
  unfold visit
  split
  · exact hx
  · split
    · exact List.mem_append_left _ hx
    · exact hx

theorem foldl_visit_added_mono (ord : IterationOrder) (D : List (String × List String))
    (todo : List String) : ∀ (st : PassState) (x : String), x ∈ st.addedTypeNames →
      x ∈ (todo.foldl (visit ord D) st).addedTypeNames := by
  induction todo with
  | nil => intro st x hx; exact hx
  | cons key todo ih =>
    intro st x hx
    rw [List.foldl_cons]
    exact ih _ x (visit_added_mono ord D st key x hx)

/-- A key that is still to be met and whose entry is ready is added by the
rest of the pass. -/
theorem foldl_visit_adds_ready (ord : IterationOrder) (custom : List SchemaType)
    (D : List (String × List String)) (hD : DependentsSpec custom D) (todo : List String) :
    ∀ (st : PassState), PassInv custom st todo → ∀ (x : String) (second : TypeWithDependencies),
      x ∈ todo → (x, second) ∈ st.typesToDependencies → second.dependencies = [] →
      x ∈ (todo.foldl (visit ord D) st).addedTypeNames := by
  induction todo with
  | nil => intro st _ x second hx; simp at hx
  | cons key todo ih =>
    intro st h x second hx hmem hr
    rw [List.foldl_cons]
    have hinv := visit_inv ord custom D hD st key todo h
    have hfind : mapFind st.typesToDependencies x = some second :=
      mapFind_of_mem _ h.keys_nodup (x, second) hmem
    by_cases hxk : x = key
    · apply foldl_visit_added_mono
      rw [← hxk, visit_of_ready ord D st x second hfind hr]
      simp
    · have hxt : x ∈ todo := by
        rcases List.mem_cons.1 hx with h1 | h1
        · exact absurd h1 hxk
        · exact h1
      rcases visit_cases ord custom D hD st key todo h with ⟨h1, _⟩ | ⟨s2, _, _, h1⟩
      · rw [h1] at hinv ⊢
        exact ih st hinv x second hxt hmem hr
      · have hmem2 : eraseIn key (ord.setOrder key (dependentsOf D key)) (x, second)
            ∈ (visit ord D st key).typesToDependencies := by
          rw [h1]
          exact List.mem_map_of_mem _ hmem
        have hform : ∃ s3, eraseIn key (ord.setOrder key (dependentsOf D key)) (x, second)
            = (x, s3) ∧ s3.dependencies = [] := by
          unfold eraseIn
          split
          · exact ⟨_, rfl, by simp [hr, setErase]⟩
          · exact ⟨second, rfl, hr⟩
        obtain ⟨s3, hs3, hr3⟩ := hform
        rw [hs3] at hmem2
        exact ih _ hinv x s3 hxt hmem2 hr3

/-- A pass over a working set that has a ready entry shrinks the working set. -/
theorem pass_progress (ord : IterationOrder) (custom : List SchemaType)
    (D : List (String × List String)) (hD : DependentsSpec custom D) (k : Nat)
    (m : List (String × TypeWithDependencies)) (sorted : List SchemaType)
    (h : PassInv custom ⟨m, sorted, []⟩ [])
    (e : String × TypeWithDependencies) (he : e ∈ m) (hr : e.2.dependencies = []) :
    (pass ord D k m sorted).1.length < m.length := by
  have hstart := passInv_start ord custom k m sorted h
  have hkeys := foldl_visit_keys ord custom D hD _ _ hstart
  have hadded := foldl_visit_adds_ready ord custom D hD _ _ hstart e.1 e.2
    ((ord.mapOrder_perm k _).mem_iff.2 (List.mem_map_of_mem Prod.fst he)) he hr
  show (List.foldl mapErase _ _).length < m.length
  rw [foldl_mapErase]
  have hlen : ((ord.mapOrder k (m.map Prod.fst)).foldl (visit ord D)
      ⟨m, sorted, []⟩).typesToDependencies.length = m.length := by
    have := congrArg List.length hkeys
    simpa using this
  rw [← hlen]
  apply List.length_filter_lt_length_iff_exists.2
  have hk : e.1 ∈ ((ord.mapOrder k (m.map Prod.fst)).foldl (visit ord D)
      ⟨m, sorted, []⟩).typesToDependencies.map Prod.fst := by
    rw [hkeys]
    exact List.mem_map_of_mem Prod.fst he
  obtain ⟨e2, he2, hname⟩ := List.mem_map.1 hk
  refine ⟨e2, he2, ?_⟩
  rw [hname]
  simpa using hadded

theorem sortLoop_succeeds (ord : IterationOrder) (custom : List SchemaType)
    (hcn : (custom.map (fun u => u.name)).Nodup)
    (D : List (String × List String)) (hD : DependentsSpec custom D)
    (hclosed : DependenciesClosed custom) (hac : Acyclic custom) :
    ∀ (fuel k : Nat) (m : List (String × TypeWithDependencies)) (sorted : List SchemaType),
      PassInv custom ⟨m, sorted, []⟩ [] → m.length < fuel →
      ∃ l, sortLoop ord D fuel k m sorted = some (Except.ok l) := by
  intro fuel
  induction fuel with
  | zero => intro k m sorted _ hlt; exact absurd hlt (Nat.not_lt_zero _)
  | succ fuel ih =>
    intro k m sorted h hlt
    unfold sortLoop
    cases m with
    | nil => exact ⟨sorted, by simp⟩
    | cons e0 m =>
      have hp := pass_inv ord custom hcn D hD k (e0 :: m) sorted h
      obtain ⟨e, he, hr⟩ := exists_ready custom hclosed hac (e0 :: m) sorted h (by simp)
      have hprog := pass_progress ord custom D hD k (e0 :: m) sorted h e he hr
      simp only [List.isEmpty_cons, Bool.false_eq_true, if_false]
      rw [if_neg (Nat.ne_of_lt hprog)]
      apply ih (k + 1) _ _ hp.1
      omega

/-- C3: on types with pairwise distinct names whose dependencies all name
custom types of the list and whose dependency relation has no cycle, the
sorter returns an ordering under every iteration order. -/
theorem sort_succeeds_of_acyclic (ord : IterationOrder) (types : List SchemaType)
    (hn : (types.map (fun u => u.name)).Nodup)
    (hclosed : DependenciesClosed (customTypes types))
    (hac : Acyclic (customTypes types)) :
    ∃ l, sortCustomTypesByDependencyOrder ord types = some (Except.ok l) := by
  have hcn := customTypes_names_nodup types hn
  have hg := buildGraph_inv types hcn
  exact sortLoop_succeeds ord (customTypes types) hcn (buildGraph types).typesToDependents
    hg.dependents hclosed hac ((buildGraph types).typesToDependencies.length + 1) 0
    (buildGraph types).typesToDependencies [] (passInv_init types hcn) (Nat.lt_succ_self _)

/-- No type of a dependency-ordered list is named by a set of names each of
which depends on another name of the set. -/
theorem depOrdered_avoids (custom : List SchemaType)
    (hcn : (custom.map (fun u => u.name)).Nodup) (C : String → Prop)
    (hC : ∀ x, C x → ∃ y, C y ∧ DependsOn custom x y) :
    ∀ l : List SchemaType, DepOrdered l → (∀ t ∈ l, t ∈ custom) → ∀ t ∈ l, ¬ C t.name := by
  intro l
  induction l using List.reverseRecOn with
  | nil => intro _ _ t ht; simp at ht
  | append_singleton l t ih =>
    intro hord hsub u hu hCu
    have hordl : DepOrdered l := by
      intro pre v post hsplit d hd
      exact hord pre v (post ++ [t]) (by rw [hsplit]; simp) d hd
    have ihl := ih hordl (fun v hv => hsub v (List.mem_append_left _ hv))
    rcases List.mem_append.1 hu with h1 | h1
    · exact ihl u h1 hCu
    · rw [List.mem_singleton] at h1
      rw [h1] at hCu
      obtain ⟨y, hCy, t2, ht2, hname, hdep⟩ := hC _ hCu
      have heq : t2 = t :=
        List.inj_on_of_nodup_map hcn ht2 (hsub t (by simp)) hname
      rw [heq] at hdep
      have hpre := hord l t [] rfl y hdep
      obtain ⟨v, hv, hvy⟩ := List.mem_map.1 hpre
      apply ihl v hv
      rw [hvy]; exact hCy

/-- C4: on types with pairwise distinct names whose custom types contain a
dependency cycle, the sorter fails with the circular-dependency error, under
every iteration order. -/
theorem sort_fails_of_cycle (ord : IterationOrder) (types : List SchemaType)
    (hn : (types.map (fun u => u.name)).Nodup)
    (hcyc : ∃ a, Relation.TransGen (DependsOn (customTypes types)) a a) :
    sortCustomTypesByDependencyOrder ord types
      = some (Except.error "Circular dependencies in schema") := by
  rcases sort_spec ord types hn with herr | ⟨l, _, hperm, hord⟩
  · exact herr
  · exfalso
    obtain ⟨a, ha⟩ := hcyc
    have hcn := customTypes_names_nodup types hn
    let C : String → Prop := fun x =>
      Relation.TransGen (DependsOn (customTypes types)) a x ∧
      Relation.TransGen (DependsOn (customTypes types)) x a
    have hC : ∀ x, C x → ∃ y, C y ∧ DependsOn (customTypes types) x y := by
      rintro x ⟨hax, hxa⟩
      rcases Relation.TransGen.head'_iff.1 hxa with ⟨y, hxy, hya⟩
      refine ⟨y, ⟨Relation.TransGen.tail hax hxy, ?_⟩, hxy⟩
      rcases Relation.reflTransGen_iff_eq_or_transGen.1 hya with h1 | h1
      · rw [← h1]; exact ha
      · exact h1
    have havoid := depOrdered_avoids (customTypes types) hcn C hC l hord
      (fun t ht => hperm.mem_iff.1 ht)
    obtain ⟨y, hay, _⟩ := Relation.TransGen.head'_iff.1 ha
    obtain ⟨t, ht, hname, _⟩ := hay
    apply havoid t (hperm.mem_iff.2 ht)
    rw [hname]
    exact ⟨ha, ha⟩


theorem sort_succeeds_of_acyclic_witness :
    ∃ l, sortCustomTypesByDependencyOrder reverseOrder
      [queryObject, intScalar, someEnum, someInputObject] = some (Except.ok l) :=
  sort_succeeds_of_acyclic reverseOrder [queryObject, intScalar, someEnum, someInputObject]
    (by decide)
    (by unfold DependenciesClosed; decide)
    (by
      have key : ∀ a b,
          DependsOn (customTypes [queryObject, intScalar, someEnum, someInputObject]) a b →
          a = "Query" ∧ b ≠ "Query" := by
        rintro a b ⟨t, ht, hname, hdep⟩
        have hall : ∀ t ∈ customTypes [queryObject, intScalar, someEnum, someInputObject],
            ∀ d ∈ dependencyNames t, t.name = "Query" ∧ d ≠ "Query" := by decide
        have := hall t ht b hdep
        rw [hname] at this
        exact this
      intro a ha
      obtain ⟨b, hab, _⟩ := Relation.TransGen.head'_iff.1 ha
      obtain ⟨c, _, hca⟩ := Relation.TransGen.tail'_iff.1 ha
      exact (key c a hca).2 (key a b hab).1)

theorem sort_fails_of_cycle_witness :
    sortCustomTypesByDependencyOrder insertionOrder [objectA, someEnum, objectB]
      = some (Except.error "Circular dependencies in schema") ∧
    sortCustomTypesByDependencyOrder insertionOrder [someEnum, selfObject]
      = some (Except.error "Circular dependencies in schema") :=
  ⟨sort_fails_of_cycle insertionOrder [objectA, someEnum, objectB] (by decide)
      ⟨"A", Relation.TransGen.tail
        (Relation.TransGen.single ⟨objectA, by decide, rfl, by decide⟩)
        ⟨objectB, by decide, rfl, by decide⟩⟩,
   sort_fails_of_cycle insertionOrder [someEnum, selfObject] (by decide)
      ⟨"Node", Relation.TransGen.single ⟨selfObject, by decide, rfl, by decide⟩⟩⟩

/-! ## Theorems: generation of the types -/

theorem mapModify_forall {β : Type} (Q : β → Prop) (dflt : β) (f : β → β)
    (m : List (String × β)) (key : String) (hm : ∀ e ∈ m, Q e.2) (hd : Q (f dflt))
    (hf : ∀ v, Q v → Q (f v)) : ∀ e ∈ mapModify dflt f m key, Q e.2 := by
  induction m with
  | nil =>
    intro e he
    simp only [mapModify, List.mem_singleton] at he
    rw [he]; exact hd
  | cons e0 m ih =>
    obtain ⟨k0, v0⟩ := e0
    intro e he
    by_cases h0 : k0 = key
    · simp only [mapModify, if_pos h0, List.mem_cons] at he
      rcases he with h1 | h1
      · rw [h1]; exact hf v0 (hm (k0, v0) (List.mem_cons_self _ _))
      · exact hm e (List.mem_cons_of_mem _ h1)
    · simp only [mapModify, if_neg h0, List.mem_cons] at he
      rcases he with h1 | h1
      · rw [h1]; exact hm (k0, v0) (List.mem_cons_self _ _)
      · exact ih (fun e he => hm e (List.mem_cons_of_mem _ he)) e h1

theorem foldl_buildStep_forall (P : SchemaType → Prop) (types : List SchemaType)
    (hP : ∀ t ∈ types, P t) : ∀ g : DependencyGraph,
      (∀ e ∈ g.typesToDependencies, P e.2.type) →
      ∀ e ∈ (types.foldl buildStep g).typesToDependencies, P e.2.type := by
  induction types with
  | nil => intro g hg; exact hg
  | cons t types ih =>
    intro g hg
    rw [List.foldl_cons]
    apply ih (fun u hu => hP u (List.mem_cons_of_mem _ hu))
    unfold buildStep
    split
    · exact mapModify_forall (fun v : TypeWithDependencies => P v.type) _ _ _ _ hg
        (hP t (List.mem_cons_self _ _)) (fun _ _ => hP t (List.mem_cons_self _ _))
    · exact hg

theorem visit_forall (P : SchemaType → Prop) (hdef : P default) (ord : IterationOrder)
    (D : List (String × List String)) (st : PassState) (key : String)
    (hm : ∀ e ∈ st.typesToDependencies, P e.2.type) (hs : ∀ t ∈ st.sortedTypes, P t) :
    (∀ e ∈ (visit ord D st key).typesToDependencies, P e.2.type) ∧
    (∀ t ∈ (visit ord D st key).sortedTypes, P t) := by
  have hfold : ∀ L : List String, ∀ m : List (String × TypeWithDependencies),
      (∀ e ∈ m, P e.2.type) →
      ∀ e ∈ L.foldl (fun m dependentName => eraseDependency m key dependentName) m,
        P e.2.type := by
    intro L
    induction L with
    | nil => intro m hm; exact hm
    | cons a L ih =>
      intro m hm
      rw [List.foldl_cons]
      apply ih
      exact mapModify_forall (fun v : TypeWithDependencies => P v.type) _ _ _ _ hm hdef (fun _ hv => hv)
  unfold visit
  cases hf : mapFind st.typesToDependencies key with
  | none => exact ⟨hm, hs⟩
  | some second =>
    by_cases hr : second.dependencies.isEmpty = true
    · simp only [hr, if_true]
      refine ⟨hfold _ _ hm, ?_⟩
      intro t ht
      rcases List.mem_append.1 ht with h1 | h1
      · exact hs t h1
      · rw [List.mem_singleton] at h1
        rw [h1]
        exact hm _ (mem_of_mapFind _ _ _ hf)
    · simp only [hr]
      exact ⟨hm, hs⟩

theorem pass_forall (P : SchemaType → Prop) (hdef : P default) (ord : IterationOrder)
    (D : List (String × List String)) (k : Nat) (m : List (String × TypeWithDependencies))
    (sorted : List SchemaType) (hm : ∀ e ∈ m, P e.2.type) (hs : ∀ t ∈ sorted, P t) :
    (∀ e ∈ (pass ord D k m sorted).1, P e.2.type) ∧
    (∀ t ∈ (pass ord D k m sorted).2, P t) := by
  have hfold : ∀ todo : List String, ∀ st : PassState,
      (∀ e ∈ st.typesToDependencies, P e.2.type) → (∀ t ∈ st.sortedTypes, P t) →
      (∀ e ∈ (todo.foldl (visit ord D) st).typesToDependencies, P e.2.type) ∧
      (∀ t ∈ (todo.foldl (visit ord D) st).sortedTypes, P t) := by
    intro todo
    induction todo with
    | nil => intro st h1 h2; exact ⟨h1, h2⟩
    | cons key todo ih =>
      intro st h1 h2
      rw [List.foldl_cons]
      have := visit_forall P hdef ord D st key h1 h2
      exact ih _ this.1 this.2
  have h := hfold (ord.mapOrder k (m.map Prod.fst)) ⟨m, sorted, []⟩ hm hs
  refine ⟨?_, h.2⟩
  intro e he
  have he2 : e ∈ List.foldl mapErase _ _ := he
  rw [foldl_mapErase] at he2
  exact h.1 e (List.mem_filter.1 he2).1

theorem sortLoop_forall (P : SchemaType → Prop) (hdef : P default) (ord : IterationOrder)
    (D : List (String × List String)) :
    ∀ (fuel k : Nat) (m : List (String × TypeWithDependencies)) (sorted l : List SchemaType),
      (∀ e ∈ m, P e.2.type) → (∀ t ∈ sorted, P t) →
      sortLoop ord D fuel k m sorted = some (Except.ok l) → ∀ t ∈ l, P t := by
  intro fuel
  induction fuel with
  | zero =>
    intro k m sorted l _ _ h
    simp [sortLoop] at h
  | succ fuel ih =>
    intro k m sorted l hm hs h
    unfold sortLoop at h
    by_cases hem : m.isEmpty = true
    · rw [if_pos hem] at h
      have : sorted = l := by injection h with h; injection h
      rw [← this]; exact hs
    · rw [if_neg hem] at h
      have hp := pass_forall P hdef ord D k m sorted hm hs
      by_cases hlen : (pass ord D k m sorted).1.length = m.length
      · simp only [hlen, if_true] at h
        cases h
      · simp only [hlen, if_false] at h
        exact ih (k + 1) _ _ l hp.1 hp.2 h

/-- Every type the sorter returns is a type of its input or the
value-initialised type. -/
theorem sorted_mem_or_default (ord : IterationOrder) (types l : List SchemaType)
    (h : sortCustomTypesByDependencyOrder ord types = some (Except.ok l)) :
    ∀ t ∈ l, t ∈ types ∨ t = default := by
  apply sortLoop_forall (fun t => t ∈ types ∨ t = default) (Or.inr rfl) ord _ _ _ _ _ l _ _ h
  · exact foldl_buildStep_forall (fun t => t ∈ types ∨ t = default) types
      (fun t ht => Or.inl ht) ⟨[], []⟩ (fun e he => by simp at he)
  · intro t ht; simp at ht

theorem foldl_generateType_of_no_enum (l : List SchemaType)
    (h : ∀ t ∈ l, t.kind ≠ Kind.Enum) : ∀ source : String,
      l.foldl (fun source type => generateType source type 0) source = source := by
  induction l with
  | nil => intro source; rfl
  | cons t l ih =>
    intro source
    rw [List.foldl_cons]
    have ht := h t (List.mem_cons_self _ _)
    have hstep : generateType source t 0 = source := by
      unfold generateType
      cases hk : t.kind <;> simp_all
    rw [hstep]
    exact ih (fun u hu => h u (List.mem_cons_of_mem _ hu)) source

theorem foldl_buildStep_of_no_custom (types : List SchemaType)
    (h : ∀ t ∈ types, isCustomType t.kind = false) (g : DependencyGraph) :
    types.foldl buildStep g = g := by
  induction types with
  | nil => rfl
  | cons t types ih =>
    rw [List.foldl_cons]
    have : buildStep g t = g := by
      unfold buildStep
      rw [h t (List.mem_cons_self _ _)]
      simp
    rw [this]
    exact ih (fun u hu => h u (List.mem_cons_of_mem _ hu))

/-- C10: on a schema without a type of kind Enum on which the sorter
succeeds, `generateTypes` returns the empty string; on a schema whose types
are all scalars the sorter returns the empty sequence and `generateTypes` the
empty string. -/
theorem generateTypes_without_enums (ord : IterationOrder) (schema : Schema) :
    ((∀ t ∈ schema.types, t.kind ≠ Kind.Enum) →
      (∃ l, sortCustomTypesByDependencyOrder ord schema.types = some (Except.ok l)) →
      generateTypes ord schema = some (Except.ok "")) ∧
    ((∀ t ∈ schema.types, t.kind = Kind.Scalar) →
      sortCustomTypesByDependencyOrder ord schema.types = some (Except.ok []) ∧
      generateTypes ord schema = some (Except.ok "")) := by
  constructor
  · rintro hne ⟨l, hl⟩
    unfold generateTypes
    rw [hl]
    have hmem := sorted_mem_or_default ord schema.types l hl
    have hl2 : ∀ t ∈ l, t.kind ≠ Kind.Enum := by
      intro t ht
      rcases hmem t ht with h1 | h1
      · exact hne t h1
      · rw [h1]; decide
    simp only [foldl_generateType_of_no_enum l hl2]
  · intro hsc
    have hg : buildGraph schema.types = ⟨[], []⟩ := by
      unfold buildGraph
      apply foldl_buildStep_of_no_custom
      intro t ht
      rw [hsc t ht]; rfl
    have hsort : sortCustomTypesByDependencyOrder ord schema.types = some (Except.ok []) := by
      unfold sortCustomTypesByDependencyOrder
      rw [hg]
      rfl
    refine ⟨hsort, ?_⟩
    unfold generateTypes
    rw [hsort]
    rfl

theorem generateTypes_without_enums_witness :
    generateTypes reverseOrder enumFreeSchema = some (Except.ok "") ∧
    (sortCustomTypesByDependencyOrder reverseOrder scalarSchema.types = some (Except.ok []) ∧
      generateTypes reverseOrder scalarSchema = some (Except.ok "")) :=
  ⟨(generateTypes_without_enums reverseOrder enumFreeSchema).1 (by decide)
      ⟨[someInputObject, mutationObject], by decide⟩,
   (generateTypes_without_enums reverseOrder scalarSchema).2 (by decide)⟩



/-! ## Theorems: failure and output of `generateTypes` -/

/-- A sequence returned by the sorter on types with pairwise distinct names
comes from a graph without cycle in which every dependency names a custom
type. -/
theorem sort_ok_closed_acyclic (ord : IterationOrder) (types : List SchemaType)
    (hn : (types.map (fun u => u.name)).Nodup) (l : List SchemaType)
    (h : sortCustomTypesByDependencyOrder ord types = some (Except.ok l)) :
    DependenciesClosed (customTypes types) ∧ Acyclic (customTypes types) := by
  rcases sort_spec ord types hn with herr | ⟨l2, hok, hperm, hord⟩
  · rw [herr] at h; cases h
  · have hcn := customTypes_names_nodup types hn
    constructor
    · intro t ht d hd
      obtain ⟨pre, post, hsplit⟩ := List.append_of_mem (hperm.mem_iff.2 ht)
      obtain ⟨u, hu, hud⟩ := List.mem_map.1 (hord pre t post hsplit d hd)
      refine ⟨u, hperm.mem_iff.1 ?_, hud⟩
      rw [hsplit]
      exact List.mem_append_left _ hu
    · intro a ha
      let C : String → Prop := fun x =>
        Relation.TransGen (DependsOn (customTypes types)) a x ∧
        Relation.TransGen (DependsOn (customTypes types)) x a
      have hC : ∀ x, C x → ∃ y, C y ∧ DependsOn (customTypes types) x y := by
        rintro x ⟨hax, hxa⟩
        rcases Relation.TransGen.head'_iff.1 hxa with ⟨y, hxy, hya⟩
        refine ⟨y, ⟨Relation.TransGen.tail hax hxy, ?_⟩, hxy⟩
        rcases Relation.reflTransGen_iff_eq_or_transGen.1 hya with h1 | h1
        · rw [← h1]; exact ha
        · exact h1
      have havoid := depOrdered_avoids (customTypes types) hcn C hC l2 hord
        (fun t ht => hperm.mem_iff.1 ht)
      obtain ⟨y, hay, _⟩ := Relation.TransGen.head'_iff.1 ha
      obtain ⟨t, ht, hname, _⟩ := hay
      apply havoid t (hperm.mem_iff.2 ht)
      rw [hname]
      exact ⟨ha, ha⟩

/-- On types with pairwise distinct names the sorter either returns a sequence
or fails with the circular-dependency error; it does not run out of fuel. -/
theorem sort_error_of_not_ok (ord : IterationOrder) (types : List SchemaType)
    (hn : (types.map (fun u => u.name)).Nodup)
    (h : ∀ l, sortCustomTypesByDependencyOrder ord types ≠ some (Except.ok l)) :
    sortCustomTypesByDependencyOrder ord types
      = some (Except.error "Circular dependencies in schema") := by
  rcases sort_spec ord types hn with herr | ⟨l, hok, _, _⟩
  · exact herr
  · exact absurd hok (h l)

/-- C11: `generateTypes` fails exactly when the sorter fails on `schema.types`,
with the same error and without any generated text; on a schema (type names
pairwise distinct) whose custom types contain a dependency cycle it fails with
the circular-dependency error, whatever else the schema contains. -/
theorem generateTypes_fails_iff_sort_fails (ord : IterationOrder) (schema : Schema) :
    (∀ e, generateTypes ord schema = some (Except.error e) ↔
      sortCustomTypesByDependencyOrder ord schema.types = some (Except.error e)) ∧
    ((∃ e, sortCustomTypesByDependencyOrder ord schema.types = some (Except.error e)) →
      ∀ source, generateTypes ord schema ≠ some (Except.ok source)) ∧
    ((schema.types.map (fun u => u.name)).Nodup →
      (∃ a, Relation.TransGen (DependsOn (customTypes schema.types)) a a) →
      generateTypes ord schema = some (Except.error "Circular dependencies in schema")) := by
  have hiff : ∀ e, generateTypes ord schema = some (Except.error e) ↔
      sortCustomTypesByDependencyOrder ord schema.types = some (Except.error e) := by
    intro e
    unfold generateTypes
    cases hs : sortCustomTypesByDependencyOrder ord schema.types with
    | none => simp
    | some r =>
      cases r with
      | error e2 => simp
      | ok l => simp
  refine ⟨hiff, ?_, ?_⟩
  · rintro ⟨e, he⟩ source hsrc
    rw [(hiff e).2 he] at hsrc
    cases hsrc
  · intro hn hcyc
    rw [hiff]
    apply sort_error_of_not_ok ord schema.types hn
    intro l hl
    obtain ⟨a, ha⟩ := hcyc
    exact (sort_ok_closed_acyclic ord schema.types hn l hl).2 a ha

theorem generateTypes_fails_iff_sort_fails_witness :
    generateTypes reverseOrder cyclicSchema
      = some (Except.error "Circular dependencies in schema") ∧
    ∀ source, generateTypes reverseOrder cyclicSchema ≠ some (Except.ok source) :=
  ⟨(generateTypes_fails_iff_sort_fails reverseOrder cyclicSchema).2.2 (by decide)
      ⟨"A", Relation.TransGen.tail
        (Relation.TransGen.single ⟨objectA, by decide, rfl, by decide⟩)
        ⟨objectB, by decide, rfl, by decide⟩⟩,
   (generateTypes_fails_iff_sort_fails reverseOrder cyclicSchema).2.1
      ⟨"Circular dependencies in schema", by decide⟩⟩

theorem foldl_generateType_eq (l : List SchemaType) : ∀ source : String,
    l.foldl (fun source type => generateType source type 0) source
      = source ++ concatAll (l.map emittedFor) := by
  induction l with
  | nil => intro source; simp [concatAll]
  | cons t l ih =>
    intro source
    rw [List.foldl_cons, ih]
    have hstep : generateType source t 0 = source ++ emittedFor t := by
      unfold generateType emittedFor
      cases hk : t.kind <;> simp [String.append_assoc]
    rw [hstep]
    simp [concatAll, String.append_assoc]

/-- C12: when the sorter succeeds with the sequence `l`, `generateTypes`
returns the concatenation over `l`, in order, of the enum declaration followed
by the serialization table at level zero for each enum and of nothing for any
other type; on a schema (type names pairwise distinct) every enum type occurs
exactly once in `l`. -/
theorem generateTypes_eq_concat (ord : IterationOrder) (schema : Schema) (l : List SchemaType)
    (h : sortCustomTypesByDependencyOrder ord schema.types = some (Except.ok l)) :
    generateTypes ord schema = some (Except.ok (concatAll (l.map (fun t =>
      if t.kind = Kind.Enum then generateEnum t 0 ++ generateEnumSerialization t 0 else "")))) ∧
    ((schema.types.map (fun u => u.name)).Nodup →
      ∀ t ∈ schema.types, t.kind = Kind.Enum → l.count t = 1) := by
  constructor
  · unfold generateTypes
    rw [h]
    simp only [foldl_generateType_eq]
    simp [emittedFor]
    rfl
  · intro hn t ht hk
    rcases sort_spec ord schema.types hn with herr | ⟨l2, hok, hperm, _⟩
    · rw [herr] at h; cases h
    · rw [hok] at h
      have hl : l2 = l := by injection h with h; injection h
      rw [hl] at hperm
      rw [hperm.count_eq]
      apply List.count_eq_one_of_mem
        (List.Nodup.of_map _ (customTypes_names_nodup schema.types hn))
      exact List.mem_filter.2 ⟨ht, by rw [hk]; rfl⟩

theorem generateTypes_eq_concat_witness :
    sortCustomTypesByDependencyOrder reverseOrder enumSchema.types
      = some (Except.ok [someEnum, someInputObject, colorEnum, queryObject]) ∧
    generateTypes reverseOrder enumSchema = some (Except.ok (concatAll
      ([someEnum, someInputObject, colorEnum, queryObject].map (fun t =>
        if t.kind = Kind.Enum then generateEnum t 0 ++ generateEnumSerialization t 0
        else "")))) ∧
    [someEnum, someInputObject, colorEnum, queryObject].count colorEnum = 1 :=
  ⟨by decide,
   (generateTypes_eq_concat reverseOrder enumSchema
      [someEnum, someInputObject, colorEnum, queryObject] (by decide)).1,
   (generateTypes_eq_concat reverseOrder enumSchema
      [someEnum, someInputObject, colorEnum, queryObject] (by decide)).2
      (by decide) colorEnum (by decide) rfl⟩

/-- C17: on types with pairwise distinct names, a dependency name of a custom
type that is the name of no custom type of the list makes the sorter fail with
the circular-dependency error, under every iteration order. -/
theorem sort_fails_of_missing_dependency (ord : IterationOrder) (types : List SchemaType)
    (hn : (types.map (fun u => u.name)).Nodup) (t : SchemaType) (ht : t ∈ types)
    (hk : isCustomType t.kind = true) (r : TypeRef)
    (hr : (∃ field ∈ t.fields, r = field.type.underlyingType ∨
            ∃ arg ∈ field.args, r = arg.type.underlyingType) ∨
          (∃ field ∈ t.inputFields, r = field.type.underlyingType) ∨
          r ∈ t.interfaces)
    (d : String) (hname : r.name = some d) (hkind : isCustomType r.kind = true)
    (hmissing : ∀ u ∈ types, isCustomType u.kind = true → u.name ≠ d) :
    sortCustomTypesByDependencyOrder ord types
      = some (Except.error "Circular dependencies in schema") := by
  apply sort_error_of_not_ok ord types hn
  intro l hl
  have hclosed := (sort_ok_closed_acyclic ord types hn l hl).1
  have hd : d ∈ dependencyNames t := by
    unfold dependencyNames
    rw [mem_recordedNames]
    exact ⟨r, (mem_dependencyRefs t r).2 hr, hkind, hname⟩
  obtain ⟨u, hu, hud⟩ := hclosed t (List.mem_filter.2 ⟨ht, hk⟩) d hd
  have hu2 := List.mem_filter.1 hu
  exact hmissing u hu2.1 hu2.2 hud

theorem sort_fails_of_missing_dependency_witness :
    sortCustomTypesByDependencyOrder insertionOrder [someEnum, orphanObject, intScalar]
      = some (Except.error "Circular dependencies in schema") ∧
    Acyclic (customTypes [someEnum, orphanObject, intScalar]) := by
  refine ⟨sort_fails_of_missing_dependency insertionOrder [someEnum, orphanObject, intScalar]
    (by decide) orphanObject (by decide) rfl (namedRef Kind.Object "Missing")
    (Or.inl ⟨⟨"missing", "", [], namedRef Kind.Object "Missing"⟩, List.mem_singleton.2 rfl,
      Or.inl rfl⟩)
    "Missing" rfl rfl (by decide), ?_⟩
  have key : ∀ a b, DependsOn (customTypes [someEnum, orphanObject, intScalar]) a b →
      a = "Orphan" ∧ b ≠ "Orphan" := by
    rintro a b ⟨t, ht, hname, hdep⟩
    have hall : ∀ t ∈ customTypes [someEnum, orphanObject, intScalar],
        ∀ d ∈ dependencyNames t, t.name = "Orphan" ∧ d ≠ "Orphan" := by decide
    have := hall t ht b hdep
    rw [hname] at this
    exact this
  intro a ha
  obtain ⟨b, hab, _⟩ := Relation.TransGen.head'_iff.1 ha
  obtain ⟨c, _, hca⟩ := Relation.TransGen.tail'_iff.1 ha
  exact (key c a hca).2 (key a b hab).1


/-! ## Theorems: `possibleTypes` and the sorter -/

/-- On types with pairwise distinct names whose dependencies all name custom
types and whose dependency relation has no cycle, the sorter returns a
sequence. -/
theorem sort_ok_of_closed_acyclic (ord : IterationOrder) (types : List SchemaType)
    (hn : (types.map (fun u => u.name)).Nodup)
    (hclosed : DependenciesClosed (customTypes types)) (hac : Acyclic (customTypes types)) :
    ∃ l, sortCustomTypesByDependencyOrder ord types = some (Except.ok l) := by
  have hcn := customTypes_names_nodup types hn
  have hg := buildGraph_inv types hcn
  exact sortLoop_succeeds ord (customTypes types) hcn (buildGraph types).typesToDependents
    hg.dependents hclosed hac ((buildGraph types).typesToDependencies.length + 1) 0
    (buildGraph types).typesToDependencies [] (passInv_init types hcn) (Nat.lt_succ_self _)

theorem customTypes_map_withoutPossibleTypes (types : List SchemaType) :
    customTypes (types.map withoutPossibleTypes) = (customTypes types).map withoutPossibleTypes := by
  induction types with
  | nil => rfl
  | cons t types ih =>
    have hk : (withoutPossibleTypes t).kind = t.kind := rfl
    by_cases hc : isCustomType t.kind = true
    · have h1 : customTypes (t :: types) = t :: customTypes types := by simp [customTypes, hc]
      have h2 : customTypes (withoutPossibleTypes t :: types.map withoutPossibleTypes)
          = withoutPossibleTypes t :: customTypes (types.map withoutPossibleTypes) := by
        simp [customTypes, hk, hc]
      rw [List.map_cons, h2, h1, List.map_cons, ih]
    · have h1 : customTypes (t :: types) = customTypes types := by simp [customTypes, hc]
      have h2 : customTypes (withoutPossibleTypes t :: types.map withoutPossibleTypes)
          = customTypes (types.map withoutPossibleTypes) := by
        simp [customTypes, hk, hc]
      rw [List.map_cons, h2, h1, ih]

theorem dependsOn_map_withoutPossibleTypes (custom : List SchemaType) (a b : String) :
    DependsOn (custom.map withoutPossibleTypes) a b ↔ DependsOn custom a b := by
  constructor
  · rintro ⟨t, ht, hname, hdep⟩
    obtain ⟨u, hu, hut⟩ := List.mem_map.1 ht
    rw [← hut] at hname hdep
    exact ⟨u, hu, hname, hdep⟩
  · rintro ⟨t, ht, hname, hdep⟩
    exact ⟨withoutPossibleTypes t, List.mem_map_of_mem _ ht, hname, hdep⟩

theorem dependsOn_congr (types1 types2 : List SchemaType)
    (heq : types1.map withoutPossibleTypes = types2.map withoutPossibleTypes) :
    DependsOn (customTypes types1) = DependsOn (customTypes types2) := by
  funext a b
  apply propext
  rw [← dependsOn_map_withoutPossibleTypes (customTypes types1),
    ← dependsOn_map_withoutPossibleTypes (customTypes types2),
    ← customTypes_map_withoutPossibleTypes, ← customTypes_map_withoutPossibleTypes, heq]

theorem names_map_withoutPossibleTypes (custom : List SchemaType) :
    (custom.map withoutPossibleTypes).map (fun u => u.name) = custom.map (fun u => u.name) := by
  rw [List.map_map]
  rfl

theorem dependenciesClosed_congr (types1 types2 : List SchemaType)
    (heq : types1.map withoutPossibleTypes = types2.map withoutPossibleTypes) :
    DependenciesClosed (customTypes types1) ↔ DependenciesClosed (customTypes types2) := by
  have hnames : (customTypes types1).map (fun u => u.name)
      = (customTypes types2).map (fun u => u.name) := by
    rw [← names_map_withoutPossibleTypes (customTypes types1),
      ← names_map_withoutPossibleTypes (customTypes types2),
      ← customTypes_map_withoutPossibleTypes, ← customTypes_map_withoutPossibleTypes, heq]
  have hdep := dependsOn_congr types1 types2 heq
  have key : ∀ ℓ1 ℓ2 : List SchemaType, DependsOn ℓ1 = DependsOn ℓ2 →
      ℓ1.map (fun u => u.name) = ℓ2.map (fun u => u.name) →
      DependenciesClosed ℓ1 → DependenciesClosed ℓ2 := by
    intro ℓ1 ℓ2 hd hnm h t ht d hdt
    have h2 : DependsOn ℓ2 t.name d := ⟨t, ht, rfl, hdt⟩
    rw [← hd] at h2
    obtain ⟨t1, ht1, _, hdep1⟩ := h2
    obtain ⟨u, hu, hud⟩ := h t1 ht1 d hdep1
    have : d ∈ ℓ2.map (fun u => u.name) := by
      rw [← hnm, ← hud]
      exact List.mem_map_of_mem (fun u => u.name) hu
    obtain ⟨v, hv, hvd⟩ := List.mem_map.1 this
    exact ⟨v, hv, hvd⟩
  exact ⟨key _ _ hdep hnames, key _ _ hdep.symm hnames.symm⟩

theorem mapModify_map {β γ : Type} (h : β → γ) (dflt : β) (f : β → β) (f2 : γ → γ)
    (hf : ∀ v, h (f v) = f2 (h v)) (m : List (String × β)) (key : String) :
    (mapModify dflt f m key).map (fun e => (e.1, h e.2))
      = mapModify (h dflt) f2 (m.map (fun e => (e.1, h e.2))) key := by
  induction m with
  | nil => simp [mapModify, hf]
  | cons e m ih =>
    obtain ⟨k0, v0⟩ := e
    by_cases h0 : k0 = key
    · simp [mapModify, h0, hf]
    · simp only [mapModify, if_neg h0, List.map_cons, ih]

theorem collectDependencies_congr (t1 t2 : SchemaType)
    (heq : withoutPossibleTypes t1 = withoutPossibleTypes t2)
    (dependents : List (String × List String)) :
    collectDependencies t1 dependents = collectDependencies t2 dependents := by
  have hname : t1.name = t2.name :=
    (congrArg SchemaType.name heq : (withoutPossibleTypes t1).name = (withoutPossibleTypes t2).name)
  have hfields : t1.fields = t2.fields :=
    (congrArg SchemaType.fields heq : (withoutPossibleTypes t1).fields = (withoutPossibleTypes t2).fields)
  have hinput : t1.inputFields = t2.inputFields :=
    (congrArg SchemaType.inputFields heq : (withoutPossibleTypes t1).inputFields = (withoutPossibleTypes t2).inputFields)
  have hinter : t1.interfaces = t2.interfaces :=
    (congrArg SchemaType.interfaces heq : (withoutPossibleTypes t1).interfaces = (withoutPossibleTypes t2).interfaces)
  unfold collectDependencies
  rw [hname, hfields, hinput, hinter]

theorem buildStep_dependencySets (g1 g2 : DependencyGraph) (t1 t2 : SchemaType)
    (hg : dependencySets g1 = dependencySets g2)
    (heq : withoutPossibleTypes t1 = withoutPossibleTypes t2) :
    dependencySets (buildStep g1 t1) = dependencySets (buildStep g2 t2) := by
  have hkind : t1.kind = t2.kind :=
    (congrArg SchemaType.kind heq : (withoutPossibleTypes t1).kind = (withoutPossibleTypes t2).kind)
  have hname : t1.name = t2.name :=
    (congrArg SchemaType.name heq : (withoutPossibleTypes t1).name = (withoutPossibleTypes t2).name)
  have hd : g1.typesToDependents = g2.typesToDependents := congrArg Prod.fst hg
  have hm : g1.typesToDependencies.map (fun e => (e.1, e.2.dependencies))
      = g2.typesToDependencies.map (fun e => (e.1, e.2.dependencies)) := congrArg Prod.snd hg
  unfold buildStep
  rw [hkind]
  by_cases hc : isCustomType t2.kind = true
  · simp only [hc, if_true, dependencySets]
    rw [collectDependencies_congr t1 t2 heq, hd]
    congr 1
    rw [mapModify_map TypeWithDependencies.dependencies default _
        (fun _ => (collectDependencies t2 g2.typesToDependents).2) (fun _ => rfl),
      mapModify_map TypeWithDependencies.dependencies default _
        (fun _ => (collectDependencies t2 g2.typesToDependents).2) (fun _ => rfl),
      hm, hname]
  · simp only [hc]
    exact hg

theorem foldl_buildStep_dependencySets (types1 : List SchemaType) :
    ∀ (types2 : List SchemaType) (g1 g2 : DependencyGraph),
      dependencySets g1 = dependencySets g2 →
      types1.map withoutPossibleTypes = types2.map withoutPossibleTypes →
      dependencySets (types1.foldl buildStep g1) = dependencySets (types2.foldl buildStep g2) := by
  induction types1 with
  | nil =>
    intro types2 g1 g2 hg heq
    cases types2 with
    | nil => exact hg
    | cons t2 types2 => simp at heq
  | cons t1 types1 ih =>
    intro types2 g1 g2 hg heq
    cases types2 with
    | nil => simp at heq
    | cons t2 types2 =>
      simp only [List.map_cons, List.cons.injEq] at heq
      rw [List.foldl_cons, List.foldl_cons]
      exact ih types2 _ _ (buildStep_dependencySets g1 g2 t1 t2 hg heq.1) heq.2

/-- C13: two lists of types with pairwise distinct names that differ only in
the `possibleTypes` of their types get the same dependency sets, and the
sorter succeeds on one exactly when it succeeds on the other, whatever the
iteration orders; the union `SearchResult` whose possible types name
`Article`, a type with a field of type `SearchResult`, is sorted before
`Article`. -/
theorem possibleTypes_do_not_influence (ord1 ord2 : IterationOrder)
    (types1 types2 : List SchemaType) (hn : (types1.map (fun u => u.name)).Nodup)
    (heq : types1.map withoutPossibleTypes = types2.map withoutPossibleTypes) :
    ((∃ l, sortCustomTypesByDependencyOrder ord1 types1 = some (Except.ok l)) ↔
      (∃ l, sortCustomTypesByDependencyOrder ord2 types2 = some (Except.ok l))) ∧
    dependencySets (buildGraph types1) = dependencySets (buildGraph types2) ∧
    sortCustomTypesByDependencyOrder insertionOrder [articleObject, searchResultUnion]
      = some (Except.ok [searchResultUnion, articleObject]) ∧
    sortCustomTypesByDependencyOrder reverseOrder [articleObject, searchResultUnion]
      = some (Except.ok [searchResultUnion, articleObject]) := by
  have hn2 : (types2.map (fun u => u.name)).Nodup := by
    rw [← names_map_withoutPossibleTypes types2, ← heq, names_map_withoutPossibleTypes]
    exact hn
  have hclosed := dependenciesClosed_congr types1 types2 heq
  have hdep := dependsOn_congr types1 types2 heq
  have hac : Acyclic (customTypes types1) ↔ Acyclic (customTypes types2) := by
    unfold Acyclic
    rw [hdep]
  refine ⟨⟨?_, ?_⟩, ?_, by decide, by decide⟩
  · rintro ⟨l, hl⟩
    have h := sort_ok_closed_acyclic ord1 types1 hn l hl
    exact sort_ok_of_closed_acyclic ord2 types2 hn2 (hclosed.1 h.1) (hac.1 h.2)
  · rintro ⟨l, hl⟩
    have h := sort_ok_closed_acyclic ord2 types2 hn2 l hl
    exact sort_ok_of_closed_acyclic ord1 types1 hn (hclosed.2 h.1) (hac.2 h.2)
  · exact foldl_buildStep_dependencySets types1 types2 _ _ rfl heq

theorem possibleTypes_do_not_influence_witness :
    ((∃ l, sortCustomTypesByDependencyOrder insertionOrder [articleObject, searchResultUnion]
        = some (Except.ok l)) ↔
      (∃ l, sortCustomTypesByDependencyOrder reverseOrder [articleObject, searchResultBare]
        = some (Except.ok l))) ∧
    dependencySets (buildGraph [articleObject, searchResultUnion])
      = dependencySets (buildGraph [articleObject, searchResultBare]) :=
  ⟨(possibleTypes_do_not_influence insertionOrder reverseOrder
      [articleObject, searchResultUnion] [articleObject, searchResultBare]
      (by decide) (by decide)).1,
   (possibleTypes_do_not_influence insertionOrder reverseOrder
      [articleObject, searchResultUnion] [articleObject, searchResultBare]
      (by decide) (by decide)).2.1⟩


/-! ## Theorems: termination and safety of the loop -/

theorem sortLoop_fuel_mono (ord : IterationOrder) (D : List (String × List String)) :
    ∀ (fuel k : Nat) (m : List (String × TypeWithDependencies)) (sorted : List SchemaType)
      (r : Except String (List SchemaType)),
      sortLoop ord D fuel k m sorted = some r →
      ∀ extra, sortLoop ord D (fuel + extra) k m sorted = some r := by
  intro fuel
  induction fuel with
  | zero =>
    intro k m sorted r h
    simp [sortLoop] at h
  | succ fuel ih =>
    intro k m sorted r h extra
    rw [Nat.add_right_comm]
    unfold sortLoop at h ⊢
    by_cases hem : m.isEmpty = true
    · rw [if_pos hem] at h ⊢
      exact h
    · rw [if_neg hem] at h ⊢
      by_cases hlen : (pass ord D k m sorted).1.length = m.length
      · simp only [hlen, if_true] at h ⊢
        exact h
      · simp only [hlen, if_false] at h ⊢
        exact ih _ _ _ r h extra

theorem buildGraph_length (types : List SchemaType)
    (hn : (types.map (fun u => u.name)).Nodup) :
    (buildGraph types).typesToDependencies.length = (customTypes types).length := by
  have hg := buildGraph_inv types (customTypes_names_nodup types hn)
  have := congrArg List.length hg.keys
  simpa using this

/-- In every state in which the loop condition is evaluated the invariant of
the passes holds, and the completed passes have each removed an entry. -/
theorem loopState_inv (ord : IterationOrder) (types : List SchemaType)
    (hn : (types.map (fun u => u.name)).Nodup) (k : Nat)
    (m : List (String × TypeWithDependencies)) (sorted : List SchemaType)
    (h : LoopState ord types k m sorted) :
    PassInv (customTypes types) ⟨m, sorted, []⟩ [] ∧
    k + m.length ≤ (customTypes types).length := by
  have hcn := customTypes_names_nodup types hn
  have hg := buildGraph_inv types hcn
  induction h with
  | start =>
    exact ⟨passInv_init types hcn, by rw [buildGraph_length types hn]; omega⟩
  | next k m sorted _ _ hlen ih =>
    have hp := pass_inv ord (customTypes types) hcn (buildGraph types).typesToDependents
      hg.dependents k m sorted ih.1
    refine ⟨hp.1, ?_⟩
    have := hp.2
    have := ih.2
    omega

/-- C14: on types with pairwise distinct names the sorter terminates: a budget
of one loop iteration more than there are custom types yields its outcome, a
larger budget yields the same outcome, and in every state in which the loop
condition is evaluated the next pass either strictly shrinks the working set
or raises the circular-dependency error, the number of completed passes plus
the size of the working set never exceeding the number of custom types. -/
theorem sort_terminates (ord : IterationOrder) (types : List SchemaType)
    (hn : (types.map (fun u => u.name)).Nodup) :
    (∃ r, sortCustomTypesByDependencyOrder ord types = some r) ∧
    (∀ fuel, (customTypes types).length + 1 ≤ fuel →
      sortLoop ord (buildGraph types).typesToDependents fuel 0
        (buildGraph types).typesToDependencies []
        = sortCustomTypesByDependencyOrder ord types) ∧
    (∀ k m sorted, LoopState ord types k m sorted → m ≠ [] →
      ((pass ord (buildGraph types).typesToDependents k m sorted).1.length < m.length ∨
        ∀ fuel, sortLoop ord (buildGraph types).typesToDependents (fuel + 1) k m sorted
          = some (Except.error "Circular dependencies in schema")) ∧
      k + m.length ≤ (customTypes types).length) := by
  have hcn := customTypes_names_nodup types hn
  have hg := buildGraph_inv types hcn
  have hsome : ∃ r, sortCustomTypesByDependencyOrder ord types = some r := by
    rcases sort_spec ord types hn with herr | ⟨l, hok, _, _⟩
    · exact ⟨_, herr⟩
    · exact ⟨_, hok⟩
  refine ⟨hsome, ?_, ?_⟩
  · intro fuel hfuel
    obtain ⟨r, hr⟩ := hsome
    rw [hr]
    have hr2 : sortLoop ord (buildGraph types).typesToDependents
        ((buildGraph types).typesToDependencies.length + 1) 0
        (buildGraph types).typesToDependencies [] = some r := hr
    have := sortLoop_fuel_mono ord _ _ 0 _ [] r hr2
      (fuel - ((buildGraph types).typesToDependencies.length + 1))
    rw [buildGraph_length types hn] at this
    rw [← this]
    congr 1
    omega
  · intro k m sorted hstate hm
    have hinv := loopState_inv ord types hn k m sorted hstate
    have hp := pass_inv ord (customTypes types) hcn (buildGraph types).typesToDependents
      hg.dependents k m sorted hinv.1
    refine ⟨?_, hinv.2⟩
    by_cases hlen : (pass ord (buildGraph types).typesToDependents k m sorted).1.length
        = m.length
    · right
      intro fuel
      unfold sortLoop
      have hem : m.isEmpty = false := by
        cases m with
        | nil => exact absurd rfl hm
        | cons e m => rfl
      simp [hem, hlen]
    · left
      have := hp.2
      omega

theorem sort_terminates_witness :
    (∃ r, sortCustomTypesByDependencyOrder reverseOrder
      [queryObject, intScalar, someEnum, someInputObject] = some r) ∧
    sortLoop reverseOrder
      (buildGraph [queryObject, intScalar, someEnum, someInputObject]).typesToDependents 10 0
      (buildGraph [queryObject, intScalar, someEnum, someInputObject]).typesToDependencies []
      = sortCustomTypesByDependencyOrder reverseOrder
          [queryObject, intScalar, someEnum, someInputObject] :=
  ⟨(sort_terminates reverseOrder [queryObject, intScalar, someEnum, someInputObject]
      (by decide)).1,
   (sort_terminates reverseOrder [queryObject, intScalar, someEnum, someInputObject]
      (by decide)).2.1 10 (by decide)⟩

theorem foldl_visit_inv_prefix (ord : IterationOrder) (custom : List SchemaType)
    (D : List (String × List String)) (hD : DependentsSpec custom D) (pre : List String) :
    ∀ (st : PassState) (todo : List String), PassInv custom st (pre ++ todo) →
      PassInv custom (pre.foldl (visit ord D) st) todo := by
  induction pre with
  | nil => intro st todo h; exact h
  | cons key pre ih =>
    intro st todo h
    rw [List.foldl_cons]
    exact ih _ todo (visit_inv ord custom D hD st key (pre ++ todo) h)

/-- C20: on types with pairwise distinct names, in every pass and for every
ready pair met in it, each access `typesToDependencies[dependentName]` finds
an entry that is present, so the iteration over the working set never
changes its keys; and a type of the list that has left the working set has
all its dependency names among the names of the result. -/
theorem lookups_find_present_entries (ord : IterationOrder) (types : List SchemaType)
    (hn : (types.map (fun u => u.name)).Nodup) (k : Nat)
    (m : List (String × TypeWithDependencies)) (sorted : List SchemaType)
    (hstate : LoopState ord types k m sorted) :
    (∀ pre key rest, ord.mapOrder k (m.map Prod.fst) = pre ++ key :: rest →
      ∀ second,
        mapFind (pre.foldl (visit ord (buildGraph types).typesToDependents)
          ⟨m, sorted, []⟩).typesToDependencies key = some second →
        second.dependencies = [] →
        ∀ before dependentName after,
          ord.setOrder key (dependentsOf (buildGraph types).typesToDependents key)
            = before ++ dependentName :: after →
          ∃ entry, mapFind (before.foldl (fun m2 d => eraseDependency m2 key d)
            (pre.foldl (visit ord (buildGraph types).typesToDependents)
              ⟨m, sorted, []⟩).typesToDependencies) dependentName = some entry) ∧
    ((ord.mapOrder k (m.map Prod.fst)).foldl (visit ord (buildGraph types).typesToDependents)
        ⟨m, sorted, []⟩).typesToDependencies.map Prod.fst = m.map Prod.fst ∧
    (∀ t ∈ types, isCustomType t.kind = true → t.name ∉ m.map Prod.fst →
      ∀ d ∈ dependencyNames t, d ∈ sorted.map (fun u => u.name)) := by
  have hcn := customTypes_names_nodup types hn
  have hg := buildGraph_inv types hcn
  have hinv := (loopState_inv ord types hn k m sorted hstate).1
  have hstart := passInv_start ord (customTypes types) k m sorted hinv
  refine ⟨?_, ?_, ?_⟩
  · intro pre key rest hsplit second _ _ before dependentName after hdeps
    rw [hsplit] at hstart
    have hst := foldl_visit_inv_prefix ord (customTypes types) _ hg.dependents pre _ _ hstart
    have hpresent : ∀ dn ∈ ord.setOrder key
        (dependentsOf (buildGraph types).typesToDependents key),
        dn ∈ (pre.foldl (visit ord (buildGraph types).typesToDependents)
          ⟨m, sorted, []⟩).typesToDependencies.map Prod.fst := by
      intro dn hdn
      exact dependents_present (customTypes types) _ hg.dependents _ key rest hst dn
        ((ord.setOrder_perm key _).mem_iff.1 hdn)
    have hbefore : ∀ dn ∈ before,
        dn ∈ (pre.foldl (visit ord (buildGraph types).typesToDependents)
          ⟨m, sorted, []⟩).typesToDependencies.map Prod.fst := by
      intro dn hdn
      apply hpresent
      rw [hdeps]
      exact List.mem_append_left _ hdn
    apply mapFind_isSome_of_mem
    rw [foldl_eraseDependency key before _ hst.keys_nodup hbefore, map_eraseIn_keys]
    apply hpresent
    rw [hdeps]
    exact List.mem_append_right _ (List.mem_cons_self _ _)
  · exact foldl_visit_keys ord (customTypes types) _ hg.dependents _ _ hstart
  · intro t ht hk hgone d hd
    rcases hinv.cover t (List.mem_filter.2 ⟨ht, hk⟩) with h1 | h1
    · obtain ⟨pre, post, hsplit⟩ := List.append_of_mem h1
      have hpre := hinv.ordered pre t post hsplit d hd
      have hsplit2 : sorted = pre ++ t :: post := hsplit
      rw [hsplit2, List.map_append]
      exact List.mem_append_left _ hpre
    · exact absurd h1 hgone

theorem lookups_find_present_entries_witness :
    ∃ entry, mapFind (([] : List String).foldl (fun m2 d => eraseDependency m2 "SomeEnum" d)
      (["Query"].foldl
        (visit insertionOrder
          (buildGraph [queryObject, someEnum, someInputObject]).typesToDependents)
        ⟨(buildGraph [queryObject, someEnum, someInputObject]).typesToDependencies, [], []⟩
        ).typesToDependencies)
      "Query" = some entry :=
  (lookups_find_present_entries insertionOrder [queryObject, someEnum, someInputObject]
    (by decide) 0 (buildGraph [queryObject, someEnum, someInputObject]).typesToDependencies []
    LoopState.start).1
    ["Query"] "SomeEnum" ["SomeInputObject"] (by decide) ⟨someEnum, []⟩ (by decide) rfl
    [] "Query" [] (by decide)


/-! ## Theorems: member identifiers -/

theorem upperLetters_facts : ∀ c ∈ upperLetters,
    toupper c = c ∧ tolower c ∉ upperLetters ∧ toupper (tolower c) = c := by
  decide

theorem pascal_data (s : String) :
    (screamingSnakeCaseToPascalCase s).data
      = ((s.data.splitOn '_').map capitalizeSegment).flatten := by
  unfold screamingSnakeCaseToPascalCase
  rw [pascalStep_foldl]
  cases hs : s.data.splitOn '_' with
  | nil => simp
  | cons seg rest => simp

theorem snakeOfPascal_lower (cs : List Char) (hcs : ∀ c ∈ cs, c ∈ upperLetters)
    (tail : List Char) :
    snakeOfPascal false (cs.map tolower ++ tail) = cs ++ snakeOfPascal false tail := by
  induction cs with
  | nil => rfl
  | cons c cs ih =>
    have hc := upperLetters_facts c (hcs c (List.mem_cons_self _ _))
    rw [List.map_cons, List.cons_append, snakeOfPascal, if_neg hc.2.1, hc.2.2,
      ih (fun x hx => hcs x (List.mem_cons_of_mem _ hx)), List.cons_append]

theorem snakeOfPascal_segment (first : Bool) (segment : List Char) (hne : segment ≠ [])
    (hseg : ∀ c ∈ segment, c ∈ upperLetters) (tail : List Char) :
    snakeOfPascal first (capitalizeSegment segment ++ tail)
      = (if first then [] else ['_']) ++ segment ++ snakeOfPascal false tail := by
  cases segment with
  | nil => exact absurd rfl hne
  | cons c cs =>
    have hc := upperLetters_facts c (hseg c (List.mem_cons_self _ _))
    have hmem : toupper c ∈ upperLetters := by
      rw [hc.1]; exact hseg c (List.mem_cons_self _ _)
    rw [capitalizeSegment, List.cons_append, snakeOfPascal, if_pos hmem, hc.1,
      snakeOfPascal_lower cs (fun x hx => hseg x (List.mem_cons_of_mem _ hx))]
    cases first <;> simp

theorem snakeOfPascal_segments (segments : List (List Char)) :
    ∀ first : Bool, wellFormedSegments segments = true → segments ≠ [] →
      snakeOfPascal first (segments.map capitalizeSegment).flatten
        = (if first then [] else ['_']) ++ ['_'].intercalate segments := by
  induction segments with
  | nil => intro first _ hne; exact absurd rfl hne
  | cons segment rest ih =>
    intro first hwf _
    simp only [wellFormedSegments, List.all_cons, Bool.and_eq_true, decide_eq_true_eq,
      List.all_eq_true] at hwf
    obtain ⟨⟨hne, hseg⟩, hrest⟩ := hwf
    have hne2 : segment ≠ [] := by simpa using hne
    rw [List.map_cons, List.flatten_cons, snakeOfPascal_segment first segment hne2 hseg]
    cases rest with
    | nil =>
      simp [snakeOfPascal, List.intercalate]
    | cons second rest2 =>
      have hwf2 : wellFormedSegments (second :: rest2) = true := by
        simp only [wellFormedSegments, List.all_eq_true, Bool.and_eq_true, decide_eq_true_eq]
        intro x hx
        exact hrest x hx
      rw [ih false hwf2 (by simp)]
      simp [List.intercalate, List.intersperse_cons₂]

/-- On a well-formed name the conversion can be read back. -/
theorem snakeOfPascal_pascal (s : String) (h : wellFormedSnake s = true) :
    snakeOfPascal true (screamingSnakeCaseToPascalCase s).data = s.data := by
  rw [pascal_data, snakeOfPascal_segments _ true h (List.splitOnP_ne_nil _ _)]
  simpa using List.intercalate_splitOn s.data '_'

theorem pascal_injective_on_wellFormed (a b : String) (ha : wellFormedSnake a = true)
    (hb : wellFormedSnake b = true)
    (h : screamingSnakeCaseToPascalCase a = screamingSnakeCaseToPascalCase b) : a = b := by
  have h1 := snakeOfPascal_pascal a ha
  have h2 := snakeOfPascal_pascal b hb
  rw [h, h2] at h1
  exact String.ext h1.symm

/-- C19: on well-formed screaming-snake-case names (non-empty segments of
upper-case ASCII letters separated by single underscores) the conversion to
pascal case is injective. -/
theorem screamingSnakeCaseToPascalCase_injective (a b : String)
    (ha : wellFormedSnake a = true) (hb : wellFormedSnake b = true)
    (h : screamingSnakeCaseToPascalCase a = screamingSnakeCaseToPascalCase b) : a = b :=
  pascal_injective_on_wellFormed a b ha hb h

theorem screamingSnakeCaseToPascalCase_injective_witness :
    wellFormedSnake "FOO_BAR" = true ∧ wellFormedSnake "FOOBAR" = true ∧
    screamingSnakeCaseToPascalCase "FOO_BAR" ≠ screamingSnakeCaseToPascalCase "FOOBAR" :=
  ⟨by decide, by decide, fun h =>
    absurd (screamingSnakeCaseToPascalCase_injective "FOO_BAR" "FOOBAR" (by decide) (by decide) h)
      (by decide)⟩

/-- The member lines of the enum declaration carry the member identifiers of
the enum values, in order. -/
theorem member_lines_carry_identifiers (n : Nat) (values : List EnumValue) :
    ((values.flatMap (enumValueLines n)).filter (fun line => !line.1)).map (fun line => line.2)
      = values.map (fun value =>
          spaces (4 * (n + 1)) ++ screamingSnakeCaseToPascalCase value.name ++ ",") := by
  induction values with
  | nil => rfl
  | cons value values ih =>
    rw [List.flatMap_cons, List.filter_append, List.map_append, ih]
    by_cases hd : value.description = ""
    · simp [enumValueLines, hd]
    · simp [enumValueLines, hd]

/-- C18 fails as stated: two distinct value names that differ in a doubled
underscore get the same identifier, and a value named `UNKNOWN` gets the
identifier of the synthetic member. -/
theorem memberIdentifiers_collide :
    (doubledUnderscoreEnum.enumValues.map (fun value => value.name)).Nodup ∧
    ¬ (memberIdentifiers doubledUnderscoreEnum).Nodup ∧
    (unknownValueEnum.enumValues.map (fun value => value.name)).Nodup ∧
    ¬ (memberIdentifiers unknownValueEnum).Nodup := by
  decide

/-- C18, amended: when the enum value names are pairwise distinct well-formed
screaming-snake-case names, none of them `UNKNOWN`, the member identifiers
declared by `generateEnum` are pairwise distinct. -/
theorem memberIdentifiers_nodup (t : SchemaType)
    (hn : (t.enumValues.map (fun value => value.name)).Nodup)
    (hwf : ∀ value ∈ t.enumValues, wellFormedSnake value.name = true)
    (hunknown : ∀ value ∈ t.enumValues, value.name ≠ "UNKNOWN") :
    (memberIdentifiers t).Nodup := by
  unfold memberIdentifiers
  rw [List.nodup_append]
  refine ⟨?_, by simp, ?_⟩
  · have hmap : t.enumValues.map (fun value => screamingSnakeCaseToPascalCase value.name)
        = (t.enumValues.map (fun value => value.name)).map screamingSnakeCaseToPascalCase := by
      rw [List.map_map]; rfl
    rw [hmap]
    apply List.Nodup.map_on _ hn
    intro x hx y hy hxy
    obtain ⟨vx, hvx, hvxn⟩ := List.mem_map.1 hx
    obtain ⟨vy, hvy, hvyn⟩ := List.mem_map.1 hy
    apply pascal_injective_on_wellFormed x y _ _ hxy
    · rw [← hvxn]; exact hwf vx hvx
    · rw [← hvyn]; exact hwf vy hvy
  · intro ident h1 h2
    rw [List.mem_singleton] at h2
    obtain ⟨value, hv, hvi⟩ := List.mem_map.1 h1
    have hconv : screamingSnakeCaseToPascalCase value.name
        = screamingSnakeCaseToPascalCase "UNKNOWN" := by
      rw [hvi, h2]; decide
    exact hunknown value hv
      (pascal_injective_on_wellFormed _ _ (hwf value hv) (by decide) hconv)

theorem memberIdentifiers_nodup_witness :
    (memberIdentifiers colorEnum).Nodup :=
  memberIdentifiers_nodup colorEnum (by decide) (by decide) (by decide)


/-! ## Theorems: decoding -/

theorem atKey_error_of_find_none (json : Json) (key : String) (h : json.find key = none) :
    ∃ e, json.atKey key = Except.error e := by
  cases json with
  | object members =>
    simp only [Json.find] at h
    exact ⟨JsonError.outOfRange, by simp only [Json.atKey, h]⟩
  | _ => exact ⟨JsonError.typeError, rfl⟩

theorem getValueTo_error_of_find_none {α : Type} (decode : Json → Except JsonError α)
    (json : Json) (key : String) (h : json.find key = none) :
    ∃ e, getValueTo decode json key = Except.error e := by
  obtain ⟨e, he⟩ := atKey_error_of_find_none json key h
  exact ⟨e, by simp only [getValueTo, he]⟩

/-- Decoding a type fails as soon as one of the five payload keys is absent. -/
theorem fromJsonType_error_of_absent_payload (json : Json)
    (h : json.find "fields" = none ∨ json.find "inputFields" = none ∨
      json.find "interfaces" = none ∨ json.find "enumValues" = none ∨
      json.find "possibleTypes" = none) :
    ∃ e, fromJsonType json = Except.error e := by
  unfold fromJsonType
  cases h1 : getValueTo kindFromJson json "kind" with
  | error e => exact ⟨e, rfl⟩
  | ok kind =>
  cases h2 : getValueTo getString json "name" with
  | error e => exact ⟨e, rfl⟩
  | ok name =>
  cases h3 : getValueTo getString json "description" with
  | error e => exact ⟨e, rfl⟩
  | ok description =>
  cases h4 : getValueTo (getVector fromJsonField) json "fields" with
  | error e => exact ⟨e, rfl⟩
  | ok fields =>
  cases h5 : getValueTo (getVector fromJsonInputValue) json "inputFields" with
  | error e => exact ⟨e, rfl⟩
  | ok inputFields =>
  cases h6 : getValueTo (getVector fromJsonTypeRef) json "interfaces" with
  | error e => exact ⟨e, rfl⟩
  | ok interfaces =>
  cases h7 : getValueTo (getVector fromJsonEnumValue) json "enumValues" with
  | error e => exact ⟨e, rfl⟩
  | ok enumValues =>
  cases h8 : getValueTo (getVector fromJsonTypeRef) json "possibleTypes" with
  | error e => exact ⟨e, rfl⟩
  | ok possibleTypes =>
    exfalso
    rcases h with h | h | h | h | h
    · obtain ⟨e, he⟩ := getValueTo_error_of_find_none (getVector fromJsonField) json _ h
      rw [he] at h4; cases h4
    · obtain ⟨e, he⟩ := getValueTo_error_of_find_none (getVector fromJsonInputValue) json _ h
      rw [he] at h5; cases h5
    · obtain ⟨e, he⟩ := getValueTo_error_of_find_none (getVector fromJsonTypeRef) json _ h
      rw [he] at h6; cases h6
    · obtain ⟨e, he⟩ := getValueTo_error_of_find_none (getVector fromJsonEnumValue) json _ h
      rw [he] at h7; cases h7
    · obtain ⟨e, he⟩ := getValueTo_error_of_find_none (getVector fromJsonTypeRef) json _ h
      rw [he] at h8; cases h8

/-- C15, the code at the failing input: the JSON object of the enum `Color`
with valid `kind`, `name` and `description` and without the keys `fields`,
`inputFields`, `interfaces` and `possibleTypes` is not decoded to a type with
empty collections; decoding raises `out_of_range` at the key `fields`.  With
the absent keys present as empty arrays the same object decodes to `Color`. -/
theorem fromJsonType_fails_on_absent_keys :
    fromJsonType colorJson = Except.error JsonError.outOfRange ∧
    fromJsonType colorFullJson = Except.ok colorEnum := by
  constructor
  · decide
  · decide


theorem kindFromJson_of_mem (kind : Kind) (literal : String) (h : (kind, literal) ∈ kindTable) :
    kindFromJson (Json.string literal) = Except.ok kind := by
  simp only [kindTable, List.mem_cons, Prod.mk.injEq, List.mem_singleton, List.not_mem_nil,
    or_false] at h
  rcases h with h | h | h | h | h | h | h | h <;> (rw [h.1, h.2]; decide)

theorem getOptionalValueTo_absent_or_null {α : Type} (decode : Json → Except JsonError α)
    (members : List (String × Json)) (key : String)
    (h : findMember members key = none ∨ findMember members key = some Json.null) :
    getOptionalValueTo decode (Json.object members) key = Except.ok none := by
  rcases h with h | h
  · simp only [getOptionalValueTo, Json.find, h]
  · simp only [getOptionalValueTo, Json.find, h, optionalFromJson, Json.isNull, if_true]

theorem fromJsonTypeRef_kind_absent (members : List (String × Json))
    (h : findMember members "kind" = none) :
    fromJsonTypeRef (Json.object members) = Except.error JsonError.outOfRange := by
  rw [fromJsonTypeRef]
  simp only [getValueTo, Json.atKey, h]

theorem fromJsonTypeRef_name (members : List (String × Json))
    (h : findMember members "name" = none ∨ findMember members "name" = some Json.null)
    (r : TypeRef) (hr : fromJsonTypeRef (Json.object members) = Except.ok r) :
    r.name = none := by
  rw [fromJsonTypeRef] at hr
  rw [getOptionalValueTo_absent_or_null getString members "name" h] at hr
  cases hk : getValueTo kindFromJson (Json.object members) "kind" with
  | error e => simp [hk] at hr
  | ok kind =>
    simp only [hk] at hr
    split at hr
    · injection hr with hr; rw [← hr]
    · split at hr
      · injection hr with hr; rw [← hr]
      · split at hr
        · cases hr
        · injection hr with hr; rw [← hr]

theorem fromJsonTypeRef_ofType (members : List (String × Json))
    (h : findMember members "ofType" = none ∨ findMember members "ofType" = some Json.null)
    (r : TypeRef) (hr : fromJsonTypeRef (Json.object members) = Except.ok r) :
    r.ofType = none := by
  rw [fromJsonTypeRef] at hr
  cases hk : getValueTo kindFromJson (Json.object members) "kind" with
  | error e => simp [hk] at hr
  | ok kind =>
    cases hn : getOptionalValueTo getString (Json.object members) "name" with
    | error e => simp [hk, hn] at hr
    | ok name =>
      simp only [hk, hn] at hr
      split at hr
      · injection hr with hr; rw [← hr]
      · rename_i value hvalue
        have hnull : value.isNull = true := by
          simp only [Json.find] at hvalue
          rcases h with h | h
          · rw [h] at hvalue; cases hvalue
          · rw [h] at hvalue
            injection hvalue with hvalue
            rw [← hvalue]; rfl
        simp only [hnull, if_true] at hr
        injection hr with hr; rw [← hr]

theorem fromJsonTypeRef_bare (members : List (String × Json)) (kind : Kind) (literal : String)
    (hlit : (kind, literal) ∈ kindTable)
    (hkind : findMember members "kind" = some (Json.string literal))
    (hname : findMember members "name" = none ∨ findMember members "name" = some Json.null)
    (hof : findMember members "ofType" = none ∨ findMember members "ofType" = some Json.null) :
    fromJsonTypeRef (Json.object members) = Except.ok ⟨kind, none, none⟩ := by
  rw [fromJsonTypeRef]
  rw [getOptionalValueTo_absent_or_null getString members "name" hname]
  have hk : getValueTo kindFromJson (Json.object members) "kind" = Except.ok kind := by
    simp only [getValueTo, Json.atKey, hkind, kindFromJson_of_mem kind literal hlit]
  simp only [hk]
  split
  · rfl
  · rename_i value hvalue
    have hnull : value.isNull = true := by
      simp only [Json.find] at hvalue
      rcases hof with h | h
      · rw [h] at hvalue; cases hvalue
      · rw [h] at hvalue
        injection hvalue with hvalue
        rw [← hvalue]; rfl
    simp only [hnull, if_true]

/-- C16: decoding a reference from a JSON object fails when the key `kind` is
absent; when `kind` is one of the eight literals, an absent or null `name`
decodes to an absent name and an absent or null `ofType` to an absent
`ofType`, without error; and each literal decodes to the kind of its name. -/
theorem fromJsonTypeRef_optional_keys (members : List (String × Json)) :
    (findMember members "kind" = none →
      fromJsonTypeRef (Json.object members) = Except.error JsonError.outOfRange) ∧
    (∀ kind literal, (kind, literal) ∈ kindTable →
      findMember members "kind" = some (Json.string literal) →
      (findMember members "name" = none ∨ findMember members "name" = some Json.null) →
      (findMember members "ofType" = none ∨ findMember members "ofType" = some Json.null) →
      fromJsonTypeRef (Json.object members) = Except.ok ⟨kind, none, none⟩) ∧
    (∀ r, fromJsonTypeRef (Json.object members) = Except.ok r →
      ((findMember members "name" = none ∨ findMember members "name" = some Json.null) →
        r.name = none) ∧
      ((findMember members "ofType" = none ∨ findMember members "ofType" = some Json.null) →
        r.ofType = none)) ∧
    (kindFromJson (Json.string "SCALAR") = Except.ok Kind.Scalar ∧
      kindFromJson (Json.string "OBJECT") = Except.ok Kind.Object ∧
      kindFromJson (Json.string "INTERFACE") = Except.ok Kind.Interface ∧
      kindFromJson (Json.string "UNION") = Except.ok Kind.Union ∧
      kindFromJson (Json.string "ENUM") = Except.ok Kind.Enum ∧
      kindFromJson (Json.string "INPUT_OBJECT") = Except.ok Kind.InputObject ∧
      kindFromJson (Json.string "LIST") = Except.ok Kind.List ∧
      kindFromJson (Json.string "NON_NULL") = Except.ok Kind.NonNull) :=
  ⟨fromJsonTypeRef_kind_absent members,
   fun kind literal hlit hkind hname hof =>
     fromJsonTypeRef_bare members kind literal hlit hkind hname hof,
   fun r hr => ⟨fun h => fromJsonTypeRef_name members h r hr,
     fun h => fromJsonTypeRef_ofType members h r hr⟩,
   by decide⟩

theorem fromJsonTypeRef_optional_keys_witness :
    fromJsonTypeRef (Json.object [("name", Json.string "Color")])
      = Except.error JsonError.outOfRange ∧
    fromJsonTypeRef (Json.object [("kind", Json.string "ENUM"), ("ofType", Json.null)])
      = Except.ok ⟨Kind.Enum, none, none⟩ :=
  ⟨(fromJsonTypeRef_optional_keys [("name", Json.string "Color")]).1 rfl,
   (fromJsonTypeRef_optional_keys [("kind", Json.string "ENUM"), ("ofType", Json.null)]).2.1
      Kind.Enum "ENUM" (by decide) rfl (Or.inl rfl) (Or.inr rfl)⟩

end CaffQL
